import Mathlib

/-!
A shallow embedding of the `rtree` radix tree (Go) in Lean 4.

This file embeds the core of the `rtree` repository — a compressed radix
tree mapping `/`-delimited string keys (with `{name}` wildcard segments)
to values — and proves properties of the embedded operations.

Go strings are modelled as `List Char`; keys in scope are ASCII so byte
indexing and `List Char` indexing agree.  Mutation of nodes (Go works on
`*Node` pointers) is modelled by state passing: a Go function that mutates
a node and returns an `error` becomes a Lean function returning the node
as it stands on exit together with an optional error.  The Go `uint8`
field `paramInfo.pos` is modelled as a `Nat` stored modulo `2^8`.
-/

/-- Errors of the `rtree` package (the `err*` variables of `tree.go`). -/
inductive RErr : Type where
  | badPathParamSyntax
  | keyIsAlreadyStored
  | keyIsEmpty
  | missingSlashPrefix
  | noCommonPrefix
  | presentSlashSuffix
  | rootIsNil
  | treeIsNil
deriving DecidableEq, Repr

/-- Embeds `paramInfo`: a wildcard parameter name and its `/`-segment
position.  In Go `pos` is a `uint8`; here it is a `Nat` reduced mod 256
at the single place the source converts (`uint8(i)` in `getPathParams`). -/
structure ParamInfo where
  key : List Char
  pos : Nat
deriving DecidableEq, Repr

/-- Embeds `NodeValue[T]`: the stored value together with the wildcard
parameter descriptors computed from the full inserted key. -/
structure NodeValue (T : Type) where
  value : T
  params : List ParamInfo
deriving DecidableEq, Repr

mutual

/-- Embeds `Node[T]`: a key fragment, an optional terminal payload
(`value *NodeValue[T]`, `nil` ↦ `none`) and the ordered list of children. -/
inductive Node (T : Type) : Type where
  | mk : List Char → Option (NodeValue T) → Children T → Node T

/-- The children list of a node (`[]*Node[T]`), as a mutual inductive so
that the recursive algorithms are structurally recursive. -/
inductive Children (T : Type) : Type where
  | nil : Children T
  | cons : Node T → Children T → Children T

end

/-- The key fragment of a node (`n.key`). -/
def Node.key {T : Type} : Node T → List Char
  | .mk k _ _ => k

/-- The optional terminal payload of a node (`n.value`). -/
def Node.val {T : Type} : Node T → Option (NodeValue T)
  | .mk _ v _ => v

/-- The children of a node (`n.children`). -/
def Node.childs {T : Type} : Node T → Children T
  | .mk _ _ cs => cs

/-- Embeds `Node.IsLeaf`: a node is a leaf iff its value pointer is non-nil. -/
def Node.isLeaf {T : Type} (n : Node T) : Bool :=
  n.val.isSome

/-- Embeds `append(n.children, newNode)` (`addToChildren`). -/
def appendChild {T : Type} : Children T → Node T → Children T
  | .nil, n => .cons n .nil
  | .cons c rest, n => .cons c (appendChild rest n)

/-- Embeds `longestCommonPrefix`: the number of leading characters two
strings share. -/
def longestCommonPrefix : List Char → List Char → Nat
  | a :: as, b :: bs => if a = b then longestCommonPrefix as bs + 1 else 0
  | _, _ => 0

/-- The scanning loop of `checkPathParams`: walks the url left to right
carrying the `insideParam` flag; returns the error produced, if any. -/
def checkPathParamsLoop : List Char → Bool → Option RErr
  | [], insideParam => if insideParam then some .badPathParamSyntax else none
  | c :: rest, insideParam =>
    if c = '/' ∧ insideParam then some .badPathParamSyntax
    else if c = '{' then
      if insideParam then some .badPathParamSyntax
      else checkPathParamsLoop rest true
    else if c = '}' then
      if ¬insideParam then some .badPathParamSyntax
      else checkPathParamsLoop rest false
    else checkPathParamsLoop rest insideParam

/-- Embeds `checkPathParams`, including its early exit when the url
contains neither curly bracket. -/
def checkPathParams (url : List Char) : Option RErr :=
  if ¬url.contains '{' ∧ ¬url.contains '}' then none
  else checkPathParamsLoop url false

/-- Embeds `checkUrl` (the `v1.0.2` version): leading slash, trailing
slash (allowing the bare root `"/"`), then path-param syntax.  The Go
function reads `url[0]` and is only ever called on a non-empty url; on
`[]` this embedding returns the missing-slash error. -/
def checkUrl (url : List Char) : Option RErr :=
  match url with
  | [] => some .missingSlashPrefix
  | c :: _ =>
    if c ≠ '/' then some .missingSlashPrefix
    else if url.getLast? = some '/' ∧ url ≠ ['/'] then some .presentSlashSuffix
    else checkPathParams url

/-- Splits a string on `'/'` (Go `strings.Split(v, "/")`): every maximal
run between slashes becomes a token, with empty tokens kept. -/
def splitOnSlash (v : List Char) : List (List Char) :=
  match v with
  | [] => [[]]
  | c :: rest =>
    let tail := splitOnSlash rest
    if c = '/' then [] :: tail
    else match tail with
      | [] => [[c]]
      | t :: ts => (c :: t) :: ts

/-- The filling loop of `getPathParams`: for each `/`-token (with its
index) that contains `'{'` and has length at least 2, emit a `paramInfo`
whose name strips the first and last character and whose position is the
token index truncated to `uint8` (`% 256`). -/
def collectPathParams : List (List Char) → Nat → List ParamInfo
  | [], _ => []
  | el :: rest, i =>
    if el.contains '{' ∧ 2 ≤ el.length then
      ⟨el.drop 1 |>.take (el.length - 2), i % 256⟩ :: collectPathParams rest (i + 1)
    else collectPathParams rest (i + 1)

/-- Embeds `getPathParams`: Go allocates `strings.Count(v, "{")` zero-valued
entries and fills them front to back, so entries not filled by the loop
remain the zero value `paramInfo{key: "", pos: 0}`. -/
def getPathParams (v : List Char) : List ParamInfo :=
  let paramCount := v.count '{'
  let collected := collectPathParams (splitOnSlash v) 0
  collected ++ List.replicate (paramCount - collected.length) ⟨[], 0⟩

/-- Go map assignment `mp[k] = val` on an association-list model:
overwrite the binding when the key is present, else append. -/
def mapPut (m : List (List Char × List Char)) (k val : List Char) :
    List (List Char × List Char) :=
  match m with
  | [] => [(k, val)]
  | (k', v') :: rest =>
    if k' = k then (k, val) :: rest else (k', v') :: mapPut rest k val

/-- Embeds `matchParams`: bind each stored descriptor against the
`/`-split of the full search key, silently skipping positions past the
end of the split. -/
def matchParams (params : List ParamInfo) (v : List Char) :
    List (List Char × List Char) :=
  let spl := splitOnSlash v
  let l := spl.length
  params.foldl
    (fun mp pi => if pi.pos ≥ l then mp else mapPut mp pi.key (spl.getD pi.pos []))
    []

mutual

/-- Embeds `insertRec`.  Go mutates `n` in place and returns an `error`;
here the node as left by the call is returned together with the optional
error.  Every error exit leaves the node exactly as it was on entry. -/
def insertRecM {T : Type} (n : Node T) (key : List Char) (v : NodeValue T) :
    Node T × Option RErr :=
  match n with
  | .mk nk nv cs =>
    let lcp := longestCommonPrefix nk key
    if lcp = 0 then (.mk nk nv cs, some .noCommonPrefix)
    else if nk.length = lcp ∧ key.length = lcp then
      if (Node.mk nk nv cs).isLeaf then (.mk nk nv cs, some .keyIsAlreadyStored)
      else (.mk nk (some v) cs, none)
    else if lcp < nk.length then
      let cNewNode : Node T := .mk (nk.drop lcp) nv cs
      let keyRem := key.drop lcp
      if keyRem = [] then (.mk (nk.take lcp) (some v) (.cons cNewNode .nil), none)
      else
        (.mk (nk.take lcp) none
          (.cons cNewNode (.cons (.mk keyRem (some v) .nil) .nil)), none)
    else
      let keyRem := key.drop lcp
      match iterateInsertM cs keyRem v with
      | (cs', none) => (.mk nk nv cs', none)
      | (cs', some e) =>
        if e = .noCommonPrefix then
          (.mk nk nv (appendChild cs' (.mk keyRem (some v) .nil)), none)
        else (.mk nk nv cs', some e)

/-- Embeds `iterateInsert`: try `insertRec` on each child in order; the
first child not answering `errNoCommonPrefix` decides the outcome. -/
def iterateInsertM {T : Type} (cs : Children T) (key : List Char) (v : NodeValue T) :
    Children T × Option RErr :=
  match cs with
  | .nil => (.nil, some .noCommonPrefix)
  | .cons c rest =>
    match insertRecM c key v with
    | (c', none) => (.cons c' rest, none)
    | (c', some e) =>
      if e = .noCommonPrefix then
        match iterateInsertM rest key v with
        | (rest', e') => (.cons c' rest', e')
      else (.cons c' rest, some e)

end

/-- A tree is its (nullable) root (`Tree[T]{root *Node[T]}`); the mutex
is irrelevant to the sequential semantics. -/
abbrev RTree (T : Type) : Type := Option (Node T)

/-- Embeds `Tree.Insert` (on a non-nil tree): empty-key check, url
validation, then either root creation or recursive insertion.  The
resulting tree together with the optional error is returned; on error the
tree is the one passed in. -/
def insertT {T : Type} (t : RTree T) (key : List Char) (value : T) :
    RTree T × Option RErr :=
  if key = [] then (t, some .keyIsEmpty)
  else
    match checkUrl key with
    | some e => (t, some e)
    | none =>
      let nv : NodeValue T := ⟨value, getPathParams key⟩
      match t with
      | none => (some (.mk key (some nv) .nil), none)
      | some root =>
        match insertRecM root key nv with
        | (root', e) => (some root', e)

/-- Embeds `getOffsets`: walk the stored fragment and the search string
in lockstep, skipping one `/`-token of the search string per `{…}` group;
returns the two consumed lengths and the final wildcard flag. -/
def getOffsets (storedKey searchKey : List Char) (isWildcard : Bool) :
    Nat × Nat × Bool :=
  match storedKey with
  | [] => (0, 0, isWildcard)
  | c :: srest =>
    if searchKey = [] ∧ isWildcard = false then (0, 0, isWildcard)
    else if c = '{' then
      match getOffsets srest searchKey true with
      | (a, b, w) => (a + 1, b, w)
    else if c = '}' then
      let skip := (searchKey.takeWhile (· ≠ '/')).length
      match getOffsets srest (searchKey.drop skip) false with
      | (a, b, w) => (a + 1, b + skip, w)
    else if isWildcard then
      match getOffsets srest searchKey true with
      | (a, b, w) => (a + 1, b, w)
    else
      match searchKey with
      | [] => (0, 0, isWildcard)
      | d :: drest =>
        if c = d then
          match getOffsets srest drest isWildcard with
          | (a, b, w) => (a + 1, b + 1, w)
        else (0, 0, isWildcard)

mutual

/-- Embeds `findRec`: wildcard-aware recursive lookup returning the
matched node. -/
def findRec {T : Type} (n : Node T) (key : List Char) (isWildcard : Bool) :
    Option (Node T) :=
  match n with
  | .mk nk nv cs =>
    let isWildcard := if nk.contains '{' then true else isWildcard
    let lcp := longestCommonPrefix nk key
    if lcp = 0 ∧ isWildcard = false then none
    else if isWildcard = false then
      if key = nk then some (.mk nk nv cs)
      else if lcp < nk.length then none
      else findRecChildren cs (key.drop lcp) isWildcard
    else
      let nodeKeyRem := nk.drop lcp
      let searchKeyRem := key.drop lcp
      match getOffsets nodeKeyRem searchKeyRem true with
      | (offset1, offset2, isStillWildcard) =>
        if nodeKeyRem.length ≠ offset1 then none
        else
          let newSearchKey := searchKeyRem.drop offset2
          if newSearchKey = [] then
            if (Node.mk nk nv cs).isLeaf then some (.mk nk nv cs) else none
          else findRecChildren cs newSearchKey isStillWildcard

/-- The child loop of `findRec`: first child returning a match wins. -/
def findRecChildren {T : Type} (cs : Children T) (key : List Char)
    (isWildcard : Bool) : Option (Node T) :=
  match cs with
  | .nil => none
  | .cons c rest =>
    match findRec c key isWildcard with
    | some found => some found
    | none => findRecChildren rest key isWildcard

end

/-- Embeds `Tree.Find`: returns the stored value and the bound parameter
map, or `none` when the tree has no root, the key is empty, or nothing
matches. -/
def findT {T : Type} (t : RTree T) (key : List Char) :
    Option (T × List (List Char × List Char)) :=
  match t with
  | none => none
  | some root =>
    if key = [] then none
    else
      match findRec root key false with
      | none => none
      | some n =>
        match n.val with
        | none => none
        | some nv => some (nv.value, matchParams nv.params key)

mutual

/-- Embeds `findLongestMatchRec`: purely literal longest-prefix descent. -/
def findLongestMatchRec {T : Type} (n : Node T) (key : List Char) :
    Option (Node T) :=
  match n with
  | .mk nk nv cs =>
    let lcp := longestCommonPrefix nk key
    if lcp = 0 then none
    else if lcp ≠ nk.length then none
    else
      match findLongestMatchChildren cs (key.drop lcp) with
      | some found => some found
      | none => if (Node.mk nk nv cs).isLeaf then some (.mk nk nv cs) else none

/-- The child loop of `findLongestMatchRec`. -/
def findLongestMatchChildren {T : Type} (cs : Children T) (key : List Char) :
    Option (Node T) :=
  match cs with
  | .nil => none
  | .cons c rest =>
    match findLongestMatchRec c key with
    | some found => some found
    | none => findLongestMatchChildren rest key

end

/-- Embeds `Tree.FindLongestMatch`: the found node's value with an empty
parameter map. -/
def findLongestMatchT {T : Type} (t : RTree T) (key : List Char) :
    Option (T × List (List Char × List Char)) :=
  match t with
  | none => none
  | some root =>
    if key = [] then none
    else
      match findLongestMatchRec root key with
      | none => none
      | some n =>
        match n.val with
        | none => none
        | some nv => some (nv.value, [])

mutual

/-- Embeds `getAllLeafRec`: children first, then the node itself when it
is a leaf. -/
def getAllLeafRec {T : Type} (n : Node T) : List (Node T) :=
  match n with
  | .mk nk nv cs =>
    let arr := getAllLeafChildren cs
    if (Node.mk nk nv cs).isLeaf then arr ++ [.mk nk nv cs] else arr

/-- The child loop of `getAllLeafRec`. -/
def getAllLeafChildren {T : Type} (cs : Children T) : List (Node T) :=
  match cs with
  | .nil => []
  | .cons c rest => getAllLeafRec c ++ getAllLeafChildren rest

end

/-- Embeds `Tree.GetAllLeaf`. -/
def getAllLeafT {T : Type} (t : RTree T) : List (Node T) :=
  match t with
  | none => []
  | some root => getAllLeafRec root

mutual

/-- Embeds `getByPredicateRec`: depth-first pre-order search for the
first node satisfying the predicate. -/
def getByPredicateRec {T : Type} (n : Node T) (fn : Node T → Bool) :
    Option (Node T) :=
  match n with
  | .mk nk nv cs =>
    if fn (.mk nk nv cs) then some (.mk nk nv cs)
    else getByPredicateChildren cs fn

/-- The child loop of `getByPredicateRec`. -/
def getByPredicateChildren {T : Type} (cs : Children T) (fn : Node T → Bool) :
    Option (Node T) :=
  match cs with
  | .nil => none
  | .cons c rest =>
    match getByPredicateRec c fn with
    | some m => some m
    | none => getByPredicateChildren rest fn

end

/-- Embeds `Tree.GetByPredicate`. -/
def getByPredicateT {T : Type} (t : RTree T) (fn : Node T → Bool) :
    Option (Node T) :=
  match t with
  | none => none
  | some root => getByPredicateRec root fn

/-- Folds a list of insertions over a tree, keeping the error-discarding
in-place semantics of repeated `Insert` calls. -/
def insertAll {T : Type} (t : RTree T) : List (List Char × T) → RTree T
  | [] => t
  | (k, v) :: rest => insertAll (insertT t k v).1 rest

mutual

/-- Semantic lookup: the payload stored at full key `k` below node `n`
(the concatenation of fragments root-to-node spells `k`). -/
def getKeyNode {T : Type} : Node T → List Char → Option (NodeValue T)
  | .mk nk nv cs, k =>
    if k = nk then nv
    else if nk.isPrefixOf k then getKeyChildren cs (k.drop nk.length)
    else none

/-- Semantic lookup over a children list: first child holding the key. -/
def getKeyChildren {T : Type} : Children T → List Char → Option (NodeValue T)
  | .nil, _ => none
  | .cons c rest, k =>
    match getKeyNode c k with
    | some nv => some nv
    | none => getKeyChildren rest k

end

/-- Semantic lookup on a tree. -/
def getKeyT {T : Type} (t : RTree T) (k : List Char) : Option (NodeValue T) :=
  match t with
  | none => none
  | some root => getKeyNode root k

/-- The first characters of the fragments of a children list. -/
def Children.keyHeads {T : Type} : Children T → List (Option Char)
  | .nil => []
  | .cons c rest => c.key.head? :: rest.keyHeads

mutual

/-- The structural invariant of reachable trees: every fragment is
non-empty and no two sibling fragments share a first character. -/
def nodeInv {T : Type} : Node T → Bool
  | .mk nk _ cs => !nk.isEmpty && cs.keyHeads.Nodup && childrenInv cs

/-- `nodeInv` for every node of a children list. -/
def childrenInv {T : Type} : Children T → Bool
  | .nil => true
  | .cons c rest => nodeInv c && childrenInv rest

end

/-- The invariant on a whole tree (an absent root is fine). -/
def treeInv {T : Type} (t : RTree T) : Bool :=
  match t with
  | none => true
  | some root => nodeInv root

mutual

/-- No fragment anywhere below `n` contains a curly bracket. -/
def nodeNoWild {T : Type} : Node T → Bool
  | .mk nk _ cs => !nk.contains '{' && childrenNoWild cs

/-- `nodeNoWild` for every node of a children list. -/
def childrenNoWild {T : Type} : Children T → Bool
  | .nil => true
  | .cons c rest => nodeNoWild c && childrenNoWild rest

end

/-- No fragment of the tree contains a curly bracket. -/
def treeNoWild {T : Type} (t : RTree T) : Bool :=
  match t with
  | none => true
  | some root => nodeNoWild root

/-- All fragments in a children list have zero common prefix with `k`. -/
def allLcpZero {T : Type} : Children T → List Char → Bool
  | .nil, _ => true
  | .cons c rest, k => (longestCommonPrefix c.key k == 0) && allLcpZero rest k

/-- Modelled from the spec, §4.1: the left-to-right malformed-wildcard
scan — `{` while inside a wildcard segment, `}` while not inside one,
`/` while inside one, or ending still inside one, are malformed. -/
def specScanBad : List Char → Bool → Bool
  | [], inside => inside
  | c :: rest, inside =>
    if c = '{' then (if inside then true else specScanBad rest true)
    else if c = '}' then (if inside then specScanBad rest false else true)
    else if c = '/' then (if inside then true else specScanBad rest inside)
    else specScanBad rest inside

/-- Modelled from the spec, §4.1 / claim C5: the validation cascade —
empty key, then missing leading slash, then trailing slash (key ends in
`/` and is not exactly `/`), then the malformed-wildcard scan. -/
def specValidate (key : List Char) : Option RErr :=
  if key = [] then some .keyIsEmpty
  else if key.head? ≠ some '/' then some .missingSlashPrefix
  else if key.getLast? = some '/' ∧ key ≠ ['/'] then some .presentSlashSuffix
  else if specScanBad key false then some .badPathParamSyntax
  else none

/-- Spec-side wildcard parameter extraction (the amended claim C8): one
descriptor per `/`-token that contains `'{'` and has length at least two,
named by stripping the token's first and last characters, positioned at
the token's index mod 256; then zero-valued padding up to the number of
`'{'` characters in the key. -/
def specPathParams (v : List Char) : List ParamInfo :=
  let toks := (splitOnSlash v).enum
  let collected := toks.filterMap fun p =>
    if p.2.contains '{' ∧ 2 ≤ p.2.length then
      some ⟨p.2.drop 1 |>.take (p.2.length - 2), p.1 % 256⟩
    else none
  collected ++ List.replicate (v.count '{' - collected.length) ⟨[], 0⟩

/-- First hit of `g` on `j, j-1, …, 1` (largest index first). -/
def descendingFindSome {α : Type} (g : Nat → Option α) : Nat → Option α
  | 0 => none
  | j + 1 =>
    match g (j + 1) with
    | some w => some w
    | none => descendingFindSome g j

/-- Spec-side longest-prefix lookup: the value stored at the longest
non-empty prefix of `k` that is a stored key of `t`. -/
def longestStoredValue {T : Type} (t : RTree T) (k : List Char) : Option T :=
  (descendingFindSome (fun i => getKeyT t (k.take i)) k.length).map (·.value)

/-- The three-key static example tree of claim C6. -/
def exTreeC6 : RTree Nat :=
  insertAll none
    [("/api/products".toList, 10),
     ("/api/products/outer".toList, 11),
     ("/api/products/inner".toList, 12)]

/-- Claim C1's counterexample tree: a wildcard route inserted before a
static route it shadows. -/
def exTreeC1 : RTree Nat :=
  insertAll none [("/{x}".toList, 1), ("/ab".toList, 2)]

/-- A key whose wildcard segment sits at `/`-split index 257 (256 copies
of `/a`, then `/{p}`), exercising the `uint8` position truncation. -/
def longKeyC10 : List Char :=
  (List.replicate 256 "/a".toList).flatten ++ "/{p}".toList

/-- A search key matching `longKeyC10`, whose segment at index 257 is
`zzz` and whose segment at index 1 is `a`. -/
def longSearchC10 : List Char :=
  (List.replicate 256 "/a".toList).flatten ++ "/zzz".toList

/-- The one-route tree holding `longKeyC10`. -/
def longTreeC10 : RTree Nat := (insertT none longKeyC10 5).1

mutual

theorem insertRecM_err_unchanged {T : Type} (n n' : Node T) (key : List Char)
    (v : NodeValue T) (e : RErr) (h : insertRecM n key v = (n', some e)) :
    n' = n := by
  cases n with
  | mk nk nv cs =>
    simp only [insertRecM] at h
    split at h
    · simp at h; exact h.1.symm
    · split at h
      · split at h
        · simp at h; exact h.1.symm
        · simp at h
      · split at h
        · split at h
          · simp at h
          · simp at h
        · rcases hit : iterateInsertM cs (key.drop (longestCommonPrefix nk key)) v with ⟨cs', e'⟩
          rw [hit] at h
          cases e' with
          | none => simp at h
          | some e'' =>
            simp only at h
            split at h
            · simp at h
            · rw [Prod.mk.injEq] at h
              have := iterateInsertM_err_unchanged cs cs' _ v e'' hit
              rw [← h.1, this]

theorem iterateInsertM_err_unchanged {T : Type} (cs cs' : Children T) (key : List Char)
    (v : NodeValue T) (e : RErr) (h : iterateInsertM cs key v = (cs', some e)) :
    cs' = cs := by
  cases cs with
  | nil => simp only [iterateInsertM] at h; simp at h; exact h.1.symm
  | cons c rest =>
    simp only [iterateInsertM] at h
    rcases hc : insertRecM c key v with ⟨c', ec⟩
    rw [hc] at h
    cases ec with
    | none => simp at h
    | some ec' =>
      simp only at h
      split at h
      · rcases hr : iterateInsertM rest key v with ⟨rest', er⟩
        rw [hr] at h
        rw [Prod.mk.injEq] at h
        obtain ⟨h1, h3⟩ := h
        dsimp only at h1 h3
        have hcu := insertRecM_err_unchanged c c' key v ec' hc
        have hru := iterateInsertM_err_unchanged rest rest' key v e (by rw [hr, h3])
        rw [← h1, hcu, hru]
      · rw [Prod.mk.injEq] at h
        obtain ⟨h1, _⟩ := h
        have hcu := insertRecM_err_unchanged c c' key v ec' hc
        rw [← h1, hcu]

end

theorem lcp_nil_left (b : List Char) : longestCommonPrefix [] b = 0 := by
  cases b <;> rfl

theorem lcp_nil_right (a : List Char) : longestCommonPrefix a [] = 0 := by
  cases a <;> rfl

theorem lcp_le_left (a b : List Char) : longestCommonPrefix a b ≤ a.length := by
  induction a generalizing b with
  | nil => simp [lcp_nil_left]
  | cons x xs ih =>
    cases b with
    | nil => simp [lcp_nil_right]
    | cons y ys =>
      simp only [longestCommonPrefix]
      split
      · simpa using ih ys
      · simp

theorem lcp_le_right (a b : List Char) : longestCommonPrefix a b ≤ b.length := by
  induction a generalizing b with
  | nil => simp [lcp_nil_left]
  | cons x xs ih =>
    cases b with
    | nil => simp [lcp_nil_right]
    | cons y ys =>
      simp only [longestCommonPrefix]
      split
      · simpa using ih ys
      · simp

theorem lcp_self (a : List Char) : longestCommonPrefix a a = a.length := by
  induction a with
  | nil => rfl
  | cons x xs ih => simp [longestCommonPrefix, ih]

theorem lcp_head_eq (a b : List Char) (h : longestCommonPrefix a b ≠ 0) :
    a.head? = b.head? ∧ a ≠ [] ∧ b ≠ [] := by
  cases a with
  | nil => simp [lcp_nil_left] at h
  | cons x xs =>
    cases b with
    | nil => simp [lcp_nil_right] at h
    | cons y ys =>
      simp only [longestCommonPrefix] at h
      split at h
      · simp_all
      · simp at h

theorem lcp_zero_of_head_ne (a b : List Char) (h : a.head? ≠ b.head?) :
    longestCommonPrefix a b = 0 := by
  by_contra hne
  exact h (lcp_head_eq a b hne).1

theorem lcp_of_isPre (a b : List Char) (h : a.isPrefixOf b) :
    longestCommonPrefix a b = a.length := by
  induction a generalizing b with
  | nil => simp [lcp_nil_left]
  | cons x xs ih =>
    cases b with
    | nil => simp [List.isPrefixOf] at h
    | cons y ys =>
      simp only [List.isPrefixOf, Bool.and_eq_true, beq_iff_eq] at h
      simp [longestCommonPrefix, h.1, ih ys h.2]

theorem isPre_of_lcp (a b : List Char) (h : longestCommonPrefix a b = a.length) :
    a.isPrefixOf b := by
  induction a generalizing b with
  | nil => simp [List.isPrefixOf]
  | cons x xs ih =>
    cases b with
    | nil => simp [lcp_nil_right] at h
    | cons y ys =>
      simp only [longestCommonPrefix] at h
      split at h
      · simp only [List.length_cons, Nat.add_right_cancel_iff] at h
        simp [List.isPrefixOf, ih ys h]
        simp_all
      · simp at h

theorem lcp_take_eq (a b : List Char) :
    a.take (longestCommonPrefix a b) = b.take (longestCommonPrefix a b) := by
  induction a generalizing b with
  | nil => simp [lcp_nil_left]
  | cons x xs ih =>
    cases b with
    | nil => simp [lcp_nil_right]
    | cons y ys =>
      simp only [longestCommonPrefix]
      split
      · simp_all [List.take_succ_cons]
      · simp

theorem lcp_drop_head_ne (a b : List Char)
    (ha : longestCommonPrefix a b < a.length) (hb : longestCommonPrefix a b < b.length) :
    (a.drop (longestCommonPrefix a b)).head? ≠ (b.drop (longestCommonPrefix a b)).head? := by
  induction a generalizing b with
  | nil => simp at ha
  | cons x xs ih =>
    cases b with
    | nil => simp at hb
    | cons y ys =>
      by_cases hxy : x = y
      · simp only [longestCommonPrefix, if_pos hxy, List.length_cons,
          Nat.add_lt_add_iff_right] at ha hb
        simp only [longestCommonPrefix, if_pos hxy, List.drop_succ_cons]
        exact ih ys ha hb
      · simp only [longestCommonPrefix, if_neg hxy, List.drop_zero]
        simpa using hxy

theorem insertRecM_noCommon {T : Type} (n n' : Node T) (key : List Char)
    (v : NodeValue T) (h : insertRecM n key v = (n', some .noCommonPrefix)) :
    longestCommonPrefix n.key key = 0 := by
  cases n with
  | mk nk nv cs =>
    simp only [insertRecM] at h
    split at h
    · simpa [Node.key] using ‹longestCommonPrefix nk key = 0›
    · split at h
      · split at h
        · simp at h
        · simp at h
      · split at h
        · split at h
          · simp at h
          · simp at h
        · rcases hit : iterateInsertM cs (key.drop (longestCommonPrefix nk key)) v with ⟨cs', e'⟩
          rw [hit] at h
          cases e' with
          | none => simp at h
          | some e'' =>
            simp only at h
            split at h
            · simp at h
            · rw [Prod.mk.injEq] at h
              rename_i hne
              exact absurd (Option.some.inj h.2) hne

theorem iterateInsertM_noCommon {T : Type} (cs : Children T) (cs' : Children T)
    (key : List Char) (v : NodeValue T)
    (h : iterateInsertM cs key v = (cs', some .noCommonPrefix)) :
    allLcpZero cs key = true := by
  cases cs with
  | nil => rfl
  | cons c rest =>
    simp only [iterateInsertM] at h
    rcases hc : insertRecM c key v with ⟨c', ec⟩
    rw [hc] at h
    cases ec with
    | none => simp at h
    | some ec' =>
      simp only at h
      split at h
      · rename_i hec
        subst hec
        rcases hr : iterateInsertM rest key v with ⟨rest', er⟩
        rw [hr] at h
        rw [Prod.mk.injEq] at h
        dsimp only at h
        have h2 := h.2
        simp only [allLcpZero, Bool.and_eq_true, beq_iff_eq]
        refine ⟨insertRecM_noCommon c c' key v hc, ?_⟩
        exact iterateInsertM_noCommon rest rest' key v (by rw [hr, h2])
      · rw [Prod.mk.injEq] at h
        rename_i hne
        exact absurd (Option.some.inj h.2) hne

mutual

theorem insertRecM_err_cases {T : Type} (n n' : Node T) (key : List Char)
    (v : NodeValue T) (e : RErr) (h : insertRecM n key v = (n', some e)) :
    e = .noCommonPrefix ∨ e = .keyIsAlreadyStored := by
  cases n with
  | mk nk nv cs =>
    simp only [insertRecM] at h
    split at h
    · rw [Prod.mk.injEq] at h
      exact Or.inl (Option.some.inj h.2).symm
    · split at h
      · split at h
        · rw [Prod.mk.injEq] at h
          exact Or.inr (Option.some.inj h.2).symm
        · simp at h
      · split at h
        · split at h
          · simp at h
          · simp at h
        · rcases hit : iterateInsertM cs (key.drop (longestCommonPrefix nk key)) v with ⟨cs', e'⟩
          rw [hit] at h
          cases e' with
          | none => simp at h
          | some e'' =>
            simp only at h
            split at h
            · simp at h
            · rw [Prod.mk.injEq] at h
              rw [← Option.some.inj h.2]
              exact iterateInsertM_err_cases cs cs' _ v e'' hit

theorem iterateInsertM_err_cases {T : Type} (cs cs' : Children T) (key : List Char)
    (v : NodeValue T) (e : RErr) (h : iterateInsertM cs key v = (cs', some e)) :
    e = .noCommonPrefix ∨ e = .keyIsAlreadyStored := by
  cases cs with
  | nil =>
    simp only [iterateInsertM] at h
    rw [Prod.mk.injEq] at h
    exact Or.inl (Option.some.inj h.2).symm
  | cons c rest =>
    simp only [iterateInsertM] at h
    rcases hc : insertRecM c key v with ⟨c', ec⟩
    rw [hc] at h
    cases ec with
    | none => simp at h
    | some ec' =>
      simp only at h
      split at h
      · rcases hr : iterateInsertM rest key v with ⟨rest', er⟩
        rw [hr] at h
        rw [Prod.mk.injEq] at h
        dsimp only at h
        cases er with
        | none => simp at h
        | some er' =>
          rw [← Option.some.inj h.2]
          exact iterateInsertM_err_cases rest rest' key v er' hr
      · rw [Prod.mk.injEq] at h
        rw [← Option.some.inj h.2]
        exact insertRecM_err_cases c c' key v ec' hc

end

theorem keyHeads_appendChild {T : Type} (cs : Children T) (n : Node T) :
    (appendChild cs n).keyHeads = cs.keyHeads ++ [n.key.head?] := by
  cases cs with
  | nil => rfl
  | cons c rest =>
    simp only [appendChild, Children.keyHeads]
    rw [keyHeads_appendChild rest n]
    rfl

theorem childrenInv_appendChild {T : Type} (cs : Children T) (n : Node T) :
    childrenInv (appendChild cs n) = (childrenInv cs && nodeInv n) := by
  cases cs with
  | nil => simp [appendChild, childrenInv]
  | cons c rest =>
    simp only [appendChild, childrenInv]
    rw [childrenInv_appendChild rest n]
    simp [Bool.and_assoc]

theorem childrenNoWild_appendChild {T : Type} (cs : Children T) (n : Node T) :
    childrenNoWild (appendChild cs n) = (childrenNoWild cs && nodeNoWild n) := by
  cases cs with
  | nil => simp [appendChild, childrenNoWild]
  | cons c rest =>
    simp only [appendChild, childrenNoWild]
    rw [childrenNoWild_appendChild rest n]
    simp [Bool.and_assoc]

theorem allLcpZero_head_notMem {T : Type} (cs : Children T) (key : List Char)
    (hz : allLcpZero cs key = true) (hinv : childrenInv cs = true)
    (hk : key ≠ []) : key.head? ∉ cs.keyHeads := by
  cases cs with
  | nil => simp [Children.keyHeads]
  | cons c rest =>
    simp only [allLcpZero, Bool.and_eq_true, beq_iff_eq] at hz
    simp only [childrenInv, Bool.and_eq_true] at hinv
    simp only [Children.keyHeads, List.mem_cons]
    push_neg
    constructor
    · intro hcon
      have hck : c.key ≠ [] := by
        cases c with
        | mk ck cv ccs =>
          simp only [nodeInv, Bool.and_eq_true] at hinv
          have := hinv.1.1.1
          simpa [Node.key, List.isEmpty_iff] using this
      cases hk' : key with
      | nil => exact hk hk'
      | cons kh kt =>
        cases hck' : c.key with
        | nil => exact hck hck'
        | cons ch ct =>
          rw [hck', hk'] at hcon
          simp only [List.head?] at hcon
          have : longestCommonPrefix c.key key ≠ 0 := by
            rw [hck', hk']
            simp only [longestCommonPrefix]
            simp at hcon
            simp [hcon]
          exact this hz.1
    · exact allLcpZero_head_notMem rest key hz.2 hinv.2 hk

theorem contains_take_false (l : List Char) (c : Char) (n : Nat)
    (h : l.contains c = false) : (l.take n).contains c = false := by
  rw [Bool.eq_false_iff] at h ⊢
  intro hc
  exact h (List.elem_iff.2 (List.take_subset n l (List.elem_iff.1 hc)))

theorem contains_drop_false (l : List Char) (c : Char) (n : Nat)
    (h : l.contains c = false) : (l.drop n).contains c = false := by
  rw [Bool.eq_false_iff] at h ⊢
  intro hc
  exact h (List.elem_iff.2 (List.drop_subset n l (List.elem_iff.1 hc)))

theorem head_take_pos (l : List Char) (n : Nat) (h : n ≠ 0) :
    (l.take n).head? = l.head? := by
  cases l with
  | nil => simp
  | cons a as =>
    cases n with
    | zero => exact absurd rfl h
    | succ m => simp [List.take_succ_cons]

theorem nodeInv_mk_iff {T : Type} (nk : List Char) (nv : Option (NodeValue T))
    (cs : Children T) :
    nodeInv (.mk nk nv cs) = true ↔
      nk ≠ [] ∧ cs.keyHeads.Nodup ∧ childrenInv cs = true := by
  simp [nodeInv, List.isEmpty_iff, and_assoc]

theorem childrenInv_cons_iff {T : Type} (c : Node T) (rest : Children T) :
    childrenInv (.cons c rest) = true ↔ nodeInv c = true ∧ childrenInv rest = true := by
  simp [childrenInv]

theorem nodeNoWild_mk_iff {T : Type} (nk : List Char) (nv : Option (NodeValue T))
    (cs : Children T) :
    nodeNoWild (.mk nk nv cs) = true ↔
      nk.contains '{' = false ∧ childrenNoWild cs = true := by
  simp [nodeNoWild, Bool.not_eq_true']

theorem childrenNoWild_cons_iff {T : Type} (c : Node T) (rest : Children T) :
    childrenNoWild (.cons c rest) = true ↔
      nodeNoWild c = true ∧ childrenNoWild rest = true := by
  simp [childrenNoWild]

mutual

theorem insertRecM_ok_props {T : Type} (n n' : Node T) (key : List Char)
    (v : NodeValue T) (h : insertRecM n key v = (n', none)) :
    n'.key.head? = n.key.head?
    ∧ (nodeInv n = true → nodeInv n' = true)
    ∧ (nodeNoWild n = true → key.contains '{' = false → nodeNoWild n' = true) := by
  cases n with
  | mk nk nv cs =>
    simp only [insertRecM] at h
    split at h
    · simp at h
    · rename_i hlcp
      split at h
      · split at h
        · simp at h
        · rw [Prod.mk.injEq] at h
          rw [← h.1]
          refine ⟨rfl, ?_, ?_⟩
          · simp only [nodeInv_mk_iff]; exact id
          · simp only [nodeNoWild_mk_iff]; exact fun a _ => a
      · split at h
        · rename_i hsplitc
          have hnk : nk ≠ [] := by
            intro hc; subst hc; simp [lcp_nil_left] at hlcp
          have htake : nk.take (longestCommonPrefix nk key) ≠ [] := by
            simp [List.take_eq_nil_iff]; exact ⟨hlcp, hnk⟩
          have hdrop : nk.drop (longestCommonPrefix nk key) ≠ [] := by
            simp [List.drop_eq_nil_iff]; omega
          split at h
          · rename_i hrem
            rw [Prod.mk.injEq] at h
            rw [← h.1]
            refine ⟨?_, ?_, ?_⟩
            · simp only [Node.key]
              exact head_take_pos nk _ hlcp
            · rw [nodeInv_mk_iff, nodeInv_mk_iff]
              intro hinv
              refine ⟨htake, by simp [Children.keyHeads], ?_⟩
              rw [childrenInv_cons_iff, nodeInv_mk_iff]
              exact ⟨⟨hdrop, hinv.2.1, hinv.2.2⟩, rfl⟩
            · rw [nodeNoWild_mk_iff, nodeNoWild_mk_iff]
              intro hnw hkc
              refine ⟨contains_take_false _ _ _ hnw.1, ?_⟩
              rw [childrenNoWild_cons_iff, nodeNoWild_mk_iff]
              exact ⟨⟨contains_drop_false _ _ _ hnw.1, hnw.2⟩, rfl⟩
          · rename_i hrem
            rw [Prod.mk.injEq] at h
            rw [← h.1]
            have hkey : longestCommonPrefix nk key < key.length := by
              simp only [List.drop_eq_nil_iff] at hrem
              omega
            refine ⟨?_, ?_, ?_⟩
            · simp only [Node.key]
              exact head_take_pos nk _ hlcp
            · rw [nodeInv_mk_iff, nodeInv_mk_iff]
              intro hinv
              refine ⟨htake, ?_, ?_⟩
              · simp only [Children.keyHeads, Node.key, List.nodup_cons,
                  List.mem_singleton, List.not_mem_nil, not_false_iff, and_true,
                  List.mem_cons, or_false]
                exact ⟨lcp_drop_head_ne nk key hsplitc hkey, by simp⟩
              · rw [childrenInv_cons_iff, nodeInv_mk_iff]
                refine ⟨⟨hdrop, hinv.2.1, hinv.2.2⟩, ?_⟩
                rw [childrenInv_cons_iff, nodeInv_mk_iff]
                exact ⟨⟨hrem, by simp [Children.keyHeads], rfl⟩, rfl⟩
            · rw [nodeNoWild_mk_iff, nodeNoWild_mk_iff]
              intro hnw hkc
              refine ⟨contains_take_false _ _ _ hnw.1, ?_⟩
              rw [childrenNoWild_cons_iff, nodeNoWild_mk_iff]
              refine ⟨⟨contains_drop_false _ _ _ hnw.1, hnw.2⟩, ?_⟩
              rw [childrenNoWild_cons_iff, nodeNoWild_mk_iff]
              exact ⟨⟨contains_drop_false _ _ _ hkc, rfl⟩, rfl⟩
        · rename_i hnosplit
          rcases hit : iterateInsertM cs (key.drop (longestCommonPrefix nk key)) v with ⟨cs', e'⟩
          rw [hit] at h
          have hkeyrem : key.drop (longestCommonPrefix nk key) ≠ [] := by
            rename_i hne
            have h1 : longestCommonPrefix nk key ≤ nk.length := lcp_le_left nk key
            have h2 : longestCommonPrefix nk key ≤ key.length := lcp_le_right nk key
            rw [Ne, List.drop_eq_nil_iff]
            intro hc
            exact hne ⟨by omega, by omega⟩
          cases e' with
          | none =>
            rw [Prod.mk.injEq] at h
            rw [← h.1]
            obtain ⟨hheads, hcinv, hcnw⟩ := iterateInsertM_ok_props cs cs' _ v hit
            refine ⟨rfl, ?_, ?_⟩
            · rw [nodeInv_mk_iff, nodeInv_mk_iff]
              intro hinv
              exact ⟨hinv.1, by rw [hheads]; exact hinv.2.1, hcinv hinv.2.2⟩
            · rw [nodeNoWild_mk_iff, nodeNoWild_mk_iff]
              intro hnw hkc
              exact ⟨hnw.1, hcnw hnw.2 (contains_drop_false _ _ _ hkc)⟩
          | some e'' =>
            simp only at h
            split at h
            · rename_i he''
              subst he''
              have hcs' : cs' = cs := iterateInsertM_err_unchanged cs cs' _ v _ hit
              rw [hcs'] at hit h
              rw [Prod.mk.injEq] at h
              rw [← h.1]
              have hzero : allLcpZero cs (key.drop (longestCommonPrefix nk key)) = true :=
                iterateInsertM_noCommon cs cs _ v hit
              refine ⟨rfl, ?_, ?_⟩
              · rw [nodeInv_mk_iff, nodeInv_mk_iff]
                intro hinv
                have hnotmem := allLcpZero_head_notMem cs _ hzero hinv.2.2 hkeyrem
                refine ⟨hinv.1, ?_, ?_⟩
                · rw [keyHeads_appendChild]
                  simp only [Node.key]
                  rw [List.nodup_append]
                  refine ⟨hinv.2.1, List.nodup_singleton _, ?_⟩
                  intro a ha
                  simp only [List.mem_singleton]
                  intro hc; subst hc; exact hnotmem ha
                · rw [childrenInv_appendChild]
                  simp only [Bool.and_eq_true]
                  refine ⟨hinv.2.2, ?_⟩
                  rw [nodeInv_mk_iff]
                  exact ⟨hkeyrem, by simp [Children.keyHeads], rfl⟩
              · rw [nodeNoWild_mk_iff, nodeNoWild_mk_iff]
                intro hnw hkc
                refine ⟨hnw.1, ?_⟩
                rw [childrenNoWild_appendChild]
                simp only [Bool.and_eq_true]
                refine ⟨hnw.2, ?_⟩
                rw [nodeNoWild_mk_iff]
                exact ⟨contains_drop_false _ _ _ hkc, rfl⟩
            · simp at h

theorem iterateInsertM_ok_props {T : Type} (cs cs' : Children T) (key : List Char)
    (v : NodeValue T) (h : iterateInsertM cs key v = (cs', none)) :
    cs'.keyHeads = cs.keyHeads
    ∧ (childrenInv cs = true → childrenInv cs' = true)
    ∧ (childrenNoWild cs = true → key.contains '{' = false → childrenNoWild cs' = true) := by
  cases cs with
  | nil => simp [iterateInsertM] at h
  | cons c rest =>
    simp only [iterateInsertM] at h
    rcases hc : insertRecM c key v with ⟨c', ec⟩
    rw [hc] at h
    cases ec with
    | none =>
      rw [Prod.mk.injEq] at h
      rw [← h.1]
      obtain ⟨hh, hi, hw⟩ := insertRecM_ok_props c c' key v hc
      refine ⟨by simp [Children.keyHeads, hh], ?_, ?_⟩
      · rw [childrenInv_cons_iff, childrenInv_cons_iff]
        intro hinv
        exact ⟨hi hinv.1, hinv.2⟩
      · rw [childrenNoWild_cons_iff, childrenNoWild_cons_iff]
        intro hnw hkc
        exact ⟨hw hnw.1 hkc, hnw.2⟩
    | some ec' =>
      simp only at h
      split at h
      · rcases hr : iterateInsertM rest key v with ⟨rest', er⟩
        rw [hr] at h
        rw [Prod.mk.injEq] at h
        dsimp only at h
        cases er with
        | some _ => simp at h
        | none =>
          rw [← h.1]
          have hcu : c' = c := insertRecM_err_unchanged c c' key v ec' hc
          subst hcu
          obtain ⟨hh, hi, hw⟩ := iterateInsertM_ok_props rest rest' key v hr
          refine ⟨by simp [Children.keyHeads, hh], ?_, ?_⟩
          · rw [childrenInv_cons_iff, childrenInv_cons_iff]
            intro hinv
            exact ⟨hinv.1, hi hinv.2⟩
          · rw [childrenNoWild_cons_iff, childrenNoWild_cons_iff]
            intro hnw hkc
            exact ⟨hnw.1, hw hnw.2 hkc⟩
      · simp at h

end

theorem isPre_head_eq (a b : List Char) (h : a.isPrefixOf b = true) (ha : a ≠ []) :
    a.head? = b.head? := by
  rw [List.isPrefixOf_iff_prefix] at h
  obtain ⟨t, rfl⟩ := h
  cases a with
  | nil => exact absurd rfl ha
  | cons x xs => rfl

theorem getKeyNode_isPre {T : Type} (n : Node T) (k : List Char)
    (h : getKeyNode n k ≠ none) : n.key.isPrefixOf k = true := by
  cases n with
  | mk nk nv cs =>
    simp only [getKeyNode] at h
    split at h
    · rename_i heq
      subst heq
      simp [List.isPrefixOf_iff_prefix, Node.key]
    · split at h
      · simpa [Node.key] using ‹nk.isPrefixOf k = true›
      · simp at h

theorem getKeyChildren_head_mem {T : Type} (cs : Children T) (k : List Char)
    (h : getKeyChildren cs k ≠ none) (hinv : childrenInv cs = true) :
    k.head? ∈ cs.keyHeads := by
  cases cs with
  | nil => simp [getKeyChildren] at h
  | cons c rest =>
    rw [childrenInv_cons_iff] at hinv
    simp only [getKeyChildren] at h
    rcases hg : getKeyNode c k with _ | nv
    · rw [hg] at h
      simp only [Children.keyHeads, List.mem_cons]
      exact Or.inr (getKeyChildren_head_mem rest k (by simpa [hg] using h) hinv.2)
    · have hpre := getKeyNode_isPre c k (by rw [hg]; simp)
      have hck : c.key ≠ [] := by
        cases c with
        | mk ck cv ccs =>
          rw [nodeInv_mk_iff] at hinv
          exact hinv.1.1
      simp only [Children.keyHeads, List.mem_cons]
      exact Or.inl (isPre_head_eq c.key k hpre hck).symm

theorem prefix_length_lt (a b : List Char) (h : a.isPrefixOf b = true) (hne : b ≠ a) :
    a.length < b.length := by
  rw [List.isPrefixOf_iff_prefix] at h
  rcases Nat.lt_or_ge a.length b.length with hlt | hge
  · exact hlt
  · exact absurd (h.eq_of_length (Nat.le_antisymm h.length_le hge)).symm hne

mutual

theorem getKey_insertRecM_kAS {T : Type} (n : Node T) (k : List Char) (v : NodeValue T)
    (hinv : nodeInv n = true) (h : getKeyNode n k ≠ none) :
    insertRecM n k v = (n, some .keyIsAlreadyStored) := by
  cases n with
  | mk nk nv cs =>
    rw [nodeInv_mk_iff] at hinv
    simp only [getKeyNode] at h
    by_cases heq : k = nk
    · rw [if_pos heq] at h
      subst heq
      simp only [insertRecM]
      have hl : longestCommonPrefix k k = k.length := lcp_self k
      have hk0 : k ≠ [] := hinv.1
      rw [if_neg (by rw [hl]; simpa [List.length_eq_zero] using hk0),
        if_pos (by constructor <;> rw [hl]),
        if_pos (by simpa [Node.isLeaf, Node.val, Option.isSome_iff_ne_none] using h)]
    · rw [if_neg heq] at h
      by_cases hpre : nk.isPrefixOf k = true
      · rw [if_pos hpre] at h
        have hl : longestCommonPrefix nk k = nk.length := lcp_of_isPre nk k hpre
        have hlen : nk.length < k.length := prefix_length_lt nk k hpre heq
        simp only [insertRecM]
        rw [if_neg (by rw [hl]; simpa [List.length_eq_zero] using hinv.1),
          if_neg (by rw [hl]; omega), if_neg (by omega)]
        have hit := getKey_iterateInsertM_kAS cs (k.drop nk.length) v hinv.2.2 hinv.2.1 h
        rw [hl, hit]
        simp
      · rw [if_neg hpre] at h
        exact absurd rfl h

theorem getKey_iterateInsertM_kAS {T : Type} (cs : Children T) (k : List Char)
    (v : NodeValue T) (hinv : childrenInv cs = true) (hnodup : cs.keyHeads.Nodup)
    (h : getKeyChildren cs k ≠ none) :
    iterateInsertM cs k v = (cs, some .keyIsAlreadyStored) := by
  cases cs with
  | nil => simp [getKeyChildren] at h
  | cons c rest =>
    rw [childrenInv_cons_iff] at hinv
    simp only [Children.keyHeads, List.nodup_cons] at hnodup
    simp only [getKeyChildren] at h
    rcases hg : getKeyNode c k with _ | nv0
    · rw [hg] at h
      have hrest : getKeyChildren rest k ≠ none := by simpa using h
      have hkhead : k.head? ∈ rest.keyHeads := getKeyChildren_head_mem rest k hrest hinv.2
      have hne : c.key.head? ≠ k.head? := by
        intro hc
        rw [hc] at hnodup
        exact hnodup.1 hkhead
      have hlcp : longestCommonPrefix c.key k = 0 := lcp_zero_of_head_ne _ _ hne
      have hstep : insertRecM c k v = (c, some .noCommonPrefix) := by
        cases c with
        | mk ck cv ccs =>
          simp only [insertRecM]
          rw [if_pos (by simpa [Node.key] using hlcp)]
      simp only [iterateInsertM]
      rw [hstep]
      simp only [reduceIte]
      rw [getKey_iterateInsertM_kAS rest k v hinv.2 hnodup.2 hrest]
    · have hstep := getKey_insertRecM_kAS c k v hinv.1 (by rw [hg]; simp)
      simp only [iterateInsertM]
      rw [hstep]
      simp

end

theorem getKeyNode_none_of_lcp_zero {T : Type} (c : Node T) (k : List Char)
    (hck : c.key ≠ []) (hlcp : longestCommonPrefix c.key k = 0) :
    getKeyNode c k = none := by
  cases c with
  | mk ck cv ccs =>
    simp only [Node.key] at hck hlcp
    simp only [getKeyNode]
    rw [if_neg, if_neg]
    · intro hpre
      have := lcp_of_isPre ck k hpre
      rw [hlcp] at this
      exact hck (List.length_eq_zero.mp this.symm)
    · intro heq
      subst heq
      rw [lcp_self] at hlcp
      exact hck (List.length_eq_zero.mp hlcp)

theorem getKeyChildren_append {T : Type} (cs : Children T) (nn : Node T) (x : List Char) :
    getKeyChildren (appendChild cs nn) x =
      match getKeyChildren cs x with
      | some w => some w
      | none => getKeyNode nn x := by
  cases cs with
  | nil => cases hg : getKeyNode nn x <;> simp [appendChild, getKeyChildren, hg]
  | cons c rest =>
    simp only [appendChild, getKeyChildren]
    rcases hg : getKeyNode c x with _ | w
    · exact getKeyChildren_append rest nn x
    · rfl

theorem allLcpZero_getKeyChildren_none {T : Type} (cs : Children T) (x : List Char)
    (hz : allLcpZero cs x = true) (hinv : childrenInv cs = true) :
    getKeyChildren cs x = none := by
  cases cs with
  | nil => rfl
  | cons c rest =>
    simp only [allLcpZero, Bool.and_eq_true, beq_iff_eq] at hz
    rw [childrenInv_cons_iff] at hinv
    have hck : c.key ≠ [] := by
      cases c with
      | mk ck cv ccs =>
        rw [nodeInv_mk_iff] at hinv
        exact hinv.1.1
    simp only [getKeyChildren]
    rw [getKeyNode_none_of_lcp_zero c x hck hz.1]
    exact allLcpZero_getKeyChildren_none rest x hz.2 hinv.2

mutual

theorem insertRecM_ok_getKey {T : Type} (n n' : Node T) (k : List Char)
    (v : NodeValue T) (hinv : nodeInv n = true) (h : insertRecM n k v = (n', none)) :
    getKeyNode n' k = some v := by
  cases n with
  | mk nk nv cs =>
    rw [nodeInv_mk_iff] at hinv
    simp only [insertRecM] at h
    split at h
    · simp at h
    · rename_i hlcp
      have hle1 : longestCommonPrefix nk k ≤ nk.length := lcp_le_left nk k
      have hle2 : longestCommonPrefix nk k ≤ k.length := lcp_le_right nk k
      split at h
      · rename_i hexact
        split at h
        · simp at h
        · rw [Prod.mk.injEq] at h
          rw [← h.1]
          have hk : k = nk := by
            have hpre := isPre_of_lcp nk k hexact.1.symm
            rw [List.isPrefixOf_iff_prefix] at hpre
            exact (hpre.eq_of_length (by omega)).symm
          simp [getKeyNode, hk]
      · split at h
        · rename_i hsplitc
          split at h
          · rename_i hrem
            rw [Prod.mk.injEq] at h
            rw [← h.1]
            rw [List.drop_eq_nil_iff] at hrem
            have hk : k = nk.take (longestCommonPrefix nk k) := by
              rw [lcp_take_eq nk k]
              exact (List.take_of_length_le hrem).symm
            simp [getKeyNode, ← hk]
          · rename_i hrem
            rw [Prod.mk.injEq] at h
            rw [← h.1]
            have hlenk : longestCommonPrefix nk k < k.length := by
              simp only [ne_eq, List.drop_eq_nil_iff, not_le] at hrem
              exact hrem
            have htklen : (nk.take (longestCommonPrefix nk k)).length
                = longestCommonPrefix nk k := by
              rw [List.length_take]
              omega
            simp only [getKeyNode]
            rw [if_neg (by
                intro hc
                have := congrArg List.length hc
                rw [htklen] at this
                omega),
              if_pos (by
                rw [List.isPrefixOf_iff_prefix, lcp_take_eq nk k]
                exact List.take_prefix _ _)]
            rw [htklen]
            simp only [getKeyChildren]
            rw [getKeyNode_none_of_lcp_zero _ _
              (by
                simp only [Node.key]
                rw [Ne, List.drop_eq_nil_iff]
                omega)
              (by
                simp only [Node.key]
                exact lcp_zero_of_head_ne _ _ (lcp_drop_head_ne nk k hsplitc hlenk))]
            simp [getKeyNode]
        · rename_i hnosplit
          have hl : longestCommonPrefix nk k = nk.length := by omega
          have hkne : k ≠ nk := by
            rename_i hexact
            intro hc
            subst hc
            exact hexact ⟨by omega, by omega⟩
          rcases hit : iterateInsertM cs (k.drop (longestCommonPrefix nk k)) v with ⟨cs'', e'⟩
          rw [hit] at h
          cases e' with
          | none =>
            rw [Prod.mk.injEq] at h
            rw [← h.1]
            simp only [getKeyNode]
            rw [if_neg hkne, if_pos (isPre_of_lcp nk k hl)]
            rw [← hl]
            exact iterateInsertM_ok_getKey cs cs'' _ v hinv.2.2 hit
          | some e'' =>
            simp only at h
            split at h
            · rename_i he''
              subst he''
              have hcs : cs'' = cs := iterateInsertM_err_unchanged cs cs'' _ v _ hit
              rw [hcs] at hit h
              rw [Prod.mk.injEq] at h
              rw [← h.1]
              have hzero := iterateInsertM_noCommon cs cs _ v hit
              simp only [getKeyNode]
              rw [if_neg hkne, if_pos (isPre_of_lcp nk k hl)]
              rw [getKeyChildren_append]
              rw [← hl]
              rw [allLcpZero_getKeyChildren_none cs _ hzero hinv.2.2]
              simp [getKeyNode]
            · simp at h

theorem iterateInsertM_ok_getKey {T : Type} (cs cs' : Children T) (k : List Char)
    (v : NodeValue T) (hinv : childrenInv cs = true)
    (h : iterateInsertM cs k v = (cs', none)) :
    getKeyChildren cs' k = some v := by
  cases cs with
  | nil => simp [iterateInsertM] at h
  | cons c rest =>
    rw [childrenInv_cons_iff] at hinv
    simp only [iterateInsertM] at h
    rcases hc : insertRecM c k v with ⟨c', ec⟩
    rw [hc] at h
    cases ec with
    | none =>
      rw [Prod.mk.injEq] at h
      rw [← h.1]
      simp only [getKeyChildren]
      rw [insertRecM_ok_getKey c c' k v hinv.1 hc]
    | some ec' =>
      simp only at h
      split at h
      · rename_i hec
        subst hec
        rcases hr : iterateInsertM rest k v with ⟨rest', er⟩
        rw [hr] at h
        rw [Prod.mk.injEq] at h
        dsimp only at h
        cases er with
        | some _ => simp at h
        | none =>
          rw [← h.1]
          have hcu : c' = c := insertRecM_err_unchanged c c' k v _ hc
          rw [hcu] at hc ⊢
          have hlcp : longestCommonPrefix c.key k = 0 :=
            insertRecM_noCommon c c k v hc
          have hck : c.key ≠ [] := by
            cases c with
            | mk ck cv ccs =>
              rw [nodeInv_mk_iff] at hinv
              exact hinv.1.1
          simp only [getKeyChildren]
          rw [getKeyNode_none_of_lcp_zero c k hck hlcp]
          exact iterateInsertM_ok_getKey rest rest' k v hinv.2 hr
      · simp at h

end

theorem getKeyChildren_single {T : Type} (c : Node T) (x : List Char) :
    getKeyChildren (.cons c .nil) x = getKeyNode c x := by
  simp only [getKeyChildren]
  rcases hg : getKeyNode c x with _ | w <;> rfl

theorem getKeyNode_leaf {T : Type} (kk : List Char) (w : Option (NodeValue T))
    (x : List Char) : getKeyNode (.mk kk w .nil) x = if x = kk then w else none := by
  simp only [getKeyNode]
  by_cases hx : x = kk
  · rw [if_pos hx, if_pos hx]
  · rw [if_neg hx, if_neg hx]
    split
    · rfl
    · rfl

theorem getKeyNode_shift {T : Type} (tk dk : List Char) (nv : Option (NodeValue T))
    (cs : Children T) (x' : List Char) :
    getKeyNode (.mk (tk ++ dk) nv cs) (tk ++ x') = getKeyNode (.mk dk nv cs) x' := by
  simp only [getKeyNode, List.isPrefixOf_iff_prefix, List.append_right_inj,
    List.prefix_append_right_inj, List.length_append, List.drop_append]

theorem getKeyNode_none_of_not_pre {T : Type} (nk : List Char)
    (nv : Option (NodeValue T)) (cs : Children T) (x : List Char)
    (hpre : ¬nk.isPrefixOf x = true) : getKeyNode (.mk nk nv cs) x = none := by
  simp only [getKeyNode]
  rw [if_neg, if_neg]
  · exact hpre
  · intro he
    apply hpre
    rw [List.isPrefixOf_iff_prefix, he]

theorem getKeyNode_none_of_take_not_pre {T : Type} (nk : List Char)
    (nv : Option (NodeValue T)) (cs : Children T) (x : List Char) (m : Nat)
    (hpre : ¬(nk.take m).isPrefixOf x = true) : getKeyNode (.mk nk nv cs) x = none := by
  simp only [getKeyNode]
  rw [if_neg, if_neg]
  · intro hp
    apply hpre
    rw [List.isPrefixOf_iff_prefix] at hp ⊢
    exact (List.take_prefix m nk).trans hp
  · intro he
    apply hpre
    rw [List.isPrefixOf_iff_prefix, he]
    exact List.take_prefix m nk

theorem getKeyNode_root_descend {T : Type} (tk : List Char) (w : Option (NodeValue T))
    (cs₁ : Children T) (x' : List Char) (hx' : x' ≠ []) :
    getKeyNode (.mk tk w cs₁) (tk ++ x') = getKeyChildren cs₁ x' := by
  simp only [getKeyNode]
  rw [if_neg (by
      intro hc
      exact hx' ((List.append_right_inj _).mp (hc.trans (List.append_nil _).symm))),
    if_pos (by
      rw [List.isPrefixOf_iff_prefix]
      exact List.prefix_append _ _)]
  rw [List.drop_left]

mutual

theorem insertRecM_ok_getKey_other {T : Type} (n n' : Node T) (k x : List Char)
    (v : NodeValue T) (h : insertRecM n k v = (n', none)) (hx : x ≠ k) :
    getKeyNode n' x = getKeyNode n x := by
  cases n with
  | mk nk nv cs =>
    simp only [insertRecM] at h
    split at h
    · simp at h
    · rename_i hlcp
      have hle1 : longestCommonPrefix nk k ≤ nk.length := lcp_le_left nk k
      have hle2 : longestCommonPrefix nk k ≤ k.length := lcp_le_right nk k
      split at h
      · rename_i hexact
        split at h
        · simp at h
        · rw [Prod.mk.injEq] at h
          rw [← h.1]
          have hk : k = nk := by
            have hpre := isPre_of_lcp nk k hexact.1.symm
            rw [List.isPrefixOf_iff_prefix] at hpre
            exact (hpre.eq_of_length (by omega)).symm
          have hxnk : x ≠ nk := by rw [← hk]; exact hx
          simp only [getKeyNode]
          rw [if_neg hxnk, if_neg hxnk]
      · split at h
        · rename_i hsplitc
          have htk : nk.take (longestCommonPrefix nk k)
              = k.take (longestCommonPrefix nk k) := lcp_take_eq nk k
          have hdk : nk.drop (longestCommonPrefix nk k) ≠ [] := by
            rw [Ne, List.drop_eq_nil_iff]
            omega
          split at h
          · rename_i hrem
            rw [Prod.mk.injEq] at h
            rw [← h.1]
            rw [List.drop_eq_nil_iff] at hrem
            have hk : k = nk.take (longestCommonPrefix nk k) := by
              rw [lcp_take_eq nk k]
              exact (List.take_of_length_le hrem).symm
            by_cases hpre : (nk.take (longestCommonPrefix nk k)).isPrefixOf x = true
            · have hpre' := hpre
              rw [List.isPrefixOf_iff_prefix] at hpre'
              obtain ⟨x', rfl⟩ := hpre'
              have hx' : x' ≠ [] := by
                intro hc
                subst hc
                exact hx (by rw [List.append_nil, ← hk])
              have hshift := getKeyNode_shift (nk.take (longestCommonPrefix nk k))
                (nk.drop (longestCommonPrefix nk k)) nv cs x'
              rw [List.take_append_drop] at hshift
              rw [hshift, getKeyNode_root_descend _ _ _ _ hx', getKeyChildren_single]
            · rw [getKeyNode_none_of_take_not_pre nk nv cs x _ hpre]
              exact getKeyNode_none_of_not_pre _ _ _ _ hpre
          · rename_i hrem
            rw [Prod.mk.injEq] at h
            rw [← h.1]
            have hkdec : k = nk.take (longestCommonPrefix nk k)
                ++ k.drop (longestCommonPrefix nk k) := by
              rw [htk]
              exact (List.take_append_drop _ _).symm
            by_cases hpre : (nk.take (longestCommonPrefix nk k)).isPrefixOf x = true
            · have hpre' := hpre
              rw [List.isPrefixOf_iff_prefix] at hpre'
              obtain ⟨x', rfl⟩ := hpre'
              have hshift := getKeyNode_shift (nk.take (longestCommonPrefix nk k))
                (nk.drop (longestCommonPrefix nk k)) nv cs x'
              rw [List.take_append_drop] at hshift
              rw [hshift]
              by_cases hx' : x' = []
              · subst hx'
                rw [List.append_nil]
                simp only [getKeyNode]
                rw [if_pos trivial, if_neg (fun hc => hdk hc.symm), if_neg (by
                  rw [List.isPrefixOf_iff_prefix]
                  intro hc
                  exact hdk (List.prefix_nil.mp hc))]
              · rw [getKeyNode_root_descend _ _ _ _ hx']
                simp only [getKeyChildren]
                rw [getKeyNode_leaf, if_neg (by
                  intro hc
                  apply hx
                  rw [hc]
                  exact hkdec.symm)]
                rcases hg : getKeyNode
                    (Node.mk (nk.drop (longestCommonPrefix nk k)) nv cs) x' with _ | w
                · rfl
                · rfl
            · rw [getKeyNode_none_of_take_not_pre nk nv cs x _ hpre]
              exact getKeyNode_none_of_not_pre _ _ _ _ hpre
        · rename_i hnosplit
          have hl : longestCommonPrefix nk k = nk.length := by omega
          have hkdec : k = nk ++ k.drop (longestCommonPrefix nk k) := by
            conv_lhs => rw [← List.take_append_drop (longestCommonPrefix nk k) k]
            rw [← lcp_take_eq nk k, hl, List.take_length]
          rcases hit : iterateInsertM cs (k.drop (longestCommonPrefix nk k)) v with ⟨cs'', e'⟩
          rw [hit] at h
          cases e' with
          | none =>
            rw [Prod.mk.injEq] at h
            rw [← h.1]
            simp only [getKeyNode]
            by_cases hxe : x = nk
            · rw [if_pos hxe, if_pos hxe]
            · rw [if_neg hxe, if_neg hxe]
              by_cases hp : nk.isPrefixOf x = true
              · rw [if_pos hp, if_pos hp]
                have hxp := hp
                rw [List.isPrefixOf_iff_prefix] at hxp
                obtain ⟨xr, rfl⟩ := hxp
                rw [List.drop_left]
                refine iterateInsertM_ok_getKey_other cs cs'' _ xr v hit ?_
                intro hc
                apply hx
                rw [hc]
                exact hkdec.symm
              · rw [if_neg hp, if_neg hp]
          | some e'' =>
            simp only at h
            split at h
            · rename_i he''
              subst he''
              have hcs : cs'' = cs := iterateInsertM_err_unchanged cs cs'' _ v _ hit
              rw [hcs] at hit h
              rw [Prod.mk.injEq] at h
              rw [← h.1]
              simp only [getKeyNode]
              by_cases hxe : x = nk
              · rw [if_pos hxe, if_pos hxe]
              · rw [if_neg hxe, if_neg hxe]
                by_cases hp : nk.isPrefixOf x = true
                · rw [if_pos hp, if_pos hp]
                  have hxp := hp
                  rw [List.isPrefixOf_iff_prefix] at hxp
                  obtain ⟨xr, rfl⟩ := hxp
                  rw [List.drop_left]
                  rw [getKeyChildren_append]
                  rw [getKeyNode_leaf, if_neg (by
                    intro hc
                    apply hx
                    rw [hc]
                    exact hkdec.symm)]
                  rcases hg : getKeyChildren cs xr with _ | w
                  · rfl
                  · rfl
                · rw [if_neg hp, if_neg hp]
            · simp at h

theorem iterateInsertM_ok_getKey_other {T : Type} (cs cs' : Children T)
    (k x : List Char) (v : NodeValue T) (h : iterateInsertM cs k v = (cs', none))
    (hx : x ≠ k) : getKeyChildren cs' x = getKeyChildren cs x := by
  cases cs with
  | nil => simp [iterateInsertM] at h
  | cons c rest =>
    simp only [iterateInsertM] at h
    rcases hc : insertRecM c k v with ⟨c', ec⟩
    rw [hc] at h
    cases ec with
    | none =>
      rw [Prod.mk.injEq] at h
      rw [← h.1]
      simp only [getKeyChildren]
      rw [insertRecM_ok_getKey_other c c' k x v hc hx]
    | some ec' =>
      simp only at h
      split at h
      · rename_i hec
        subst hec
        rcases hr : iterateInsertM rest k v with ⟨rest', er⟩
        rw [hr] at h
        rw [Prod.mk.injEq] at h
        dsimp only at h
        cases er with
        | some _ => simp at h
        | none =>
          rw [← h.1]
          have hcu : c' = c := insertRecM_err_unchanged c c' k v _ hc
          rw [hcu]
          simp only [getKeyChildren]
          rw [iterateInsertM_ok_getKey_other rest rest' k x v hr hx]
      · simp at h

end

theorem findRec_none_nw {T : Type} (c : Node T) (x : List Char)
    (hnw : c.key.contains '{' = false)
    (hlcp : longestCommonPrefix c.key x = 0) : findRec c x false = none := by
  cases c with
  | mk ck cv ccs =>
    simp only [Node.key] at hnw hlcp
    simp only [findRec, hnw]
    simp [hlcp]

mutual

theorem findRec_getKey {T : Type} (n : Node T) (k : List Char) (nv : NodeValue T)
    (hinv : nodeInv n = true) (hnw : nodeNoWild n = true)
    (hg : getKeyNode n k = some nv) :
    ∃ m : Node T, findRec n k false = some m ∧ m.val = some nv := by
  cases n with
  | mk nk nv' cs =>
    rw [nodeInv_mk_iff] at hinv
    rw [nodeNoWild_mk_iff] at hnw
    simp only [getKeyNode] at hg
    by_cases hk : k = nk
    · rw [if_pos hk] at hg
      subst hk
      refine ⟨.mk k nv' cs, ?_, by simpa [Node.val] using hg⟩
      simp only [findRec, hnw.1]
      have hl : longestCommonPrefix k k = k.length := lcp_self k
      rw [if_neg (by
          simp only [Bool.false_eq_true, if_false]
          intro hc
          rw [hl] at hc
          exact hinv.1 (List.length_eq_zero.mp hc.1))]
      simp
    · rw [if_neg hk] at hg
      by_cases hpre : nk.isPrefixOf k = true
      · rw [if_pos hpre] at hg
        have hl : longestCommonPrefix nk k = nk.length := lcp_of_isPre nk k hpre
        have hnk0 : nk.length ≠ 0 := fun hc => hinv.1 (List.length_eq_zero.mp hc)
        obtain ⟨m, hm, hmv⟩ := findRecChildren_getKey cs (k.drop nk.length) nv
          hinv.2.2 hinv.2.1 hnw.2 hg
        refine ⟨m, ?_, hmv⟩
        simp only [findRec, hnw.1]
        rw [if_neg (by
            simp only [Bool.false_eq_true, if_false]
            intro hc
            rw [hl] at hc
            exact hnk0 hc.1)]
        simp only [Bool.false_eq_true, if_false, reduceIte]
        rw [if_neg hk, if_neg (by rw [hl]; omega), hl]
        exact hm
      · rw [if_neg hpre] at hg
        simp at hg

theorem findRecChildren_getKey {T : Type} (cs : Children T) (k : List Char)
    (nv : NodeValue T) (hinv : childrenInv cs = true) (hnodup : cs.keyHeads.Nodup)
    (hnw : childrenNoWild cs = true) (hg : getKeyChildren cs k = some nv) :
    ∃ m : Node T, findRecChildren cs k false = some m ∧ m.val = some nv := by
  cases cs with
  | nil => simp [getKeyChildren] at hg
  | cons c rest =>
    rw [childrenInv_cons_iff] at hinv
    rw [childrenNoWild_cons_iff] at hnw
    simp only [Children.keyHeads, List.nodup_cons] at hnodup
    simp only [getKeyChildren] at hg
    rcases hgc : getKeyNode c k with _ | w
    · rw [hgc] at hg
      simp only at hg
      have hrest : getKeyChildren rest k ≠ none := by simp [hg]
      have hkhead : k.head? ∈ rest.keyHeads := getKeyChildren_head_mem rest k hrest hinv.2
      have hne : c.key.head? ≠ k.head? := by
        intro hc
        rw [hc] at hnodup
        exact hnodup.1 hkhead
      have hcnw : c.key.contains '{' = false := by
        cases c with
        | mk ck cv ccs =>
          rw [nodeNoWild_mk_iff] at hnw
          exact hnw.1.1
      obtain ⟨m, hm, hmv⟩ := findRecChildren_getKey rest k nv hinv.2 hnodup.2 hnw.2 hg
      refine ⟨m, ?_, hmv⟩
      simp only [findRecChildren]
      rw [findRec_none_nw c k hcnw (lcp_zero_of_head_ne _ _ hne)]
      exact hm
    · rw [hgc] at hg
      obtain ⟨m, hm, hmv⟩ := findRec_getKey c k w hinv.1 hnw.1 hgc
      refine ⟨m, ?_, by rw [hmv]; exact hg⟩
      simp only [findRecChildren]
      rw [hm]

end

theorem descFS_none {α : Type} (g : Nat → Option α) (m : Nat)
    (h : ∀ j, 1 ≤ j → j ≤ m → g j = none) : descendingFindSome g m = none := by
  induction m with
  | zero => rfl
  | succ d ih =>
    simp only [descendingFindSome]
    rw [h (d + 1) (by omega) (by omega)]
    exact ih fun j h1 h2 => h j h1 (by omega)

theorem descFS_congr {α : Type} (g h : Nat → Option α) (m : Nat)
    (he : ∀ j, 1 ≤ j → j ≤ m → g j = h j) :
    descendingFindSome g m = descendingFindSome h m := by
  induction m with
  | zero => rfl
  | succ d ih =>
    simp only [descendingFindSome]
    rw [he (d + 1) (by omega) (by omega)]
    rw [ih fun j h1 h2 => he j h1 (by omega)]

theorem descFS_decomp {α : Type} (g g' : Nat → Option α) (L d : Nat) (w : Option α)
    (hL : 1 ≤ L) (hlow : ∀ j, j < L → g j = none) (hmid : g L = w)
    (hhigh : ∀ j, 1 ≤ j → j ≤ d → g (L + j) = g' j) :
    descendingFindSome g (L + d) =
      match descendingFindSome g' d with
      | some u => some u
      | none => w := by
  induction d with
  | zero =>
    simp only [descendingFindSome, Nat.add_zero]
    obtain ⟨L', rfl⟩ : ∃ L', L = L' + 1 := ⟨L - 1, by omega⟩
    simp only [descendingFindSome]
    rw [hmid]
    cases w with
    | some u => rfl
    | none =>
      exact descFS_none g L' fun j h1 h2 => hlow j (by omega)
  | succ d ih =>
    have : L + (d + 1) = (L + d) + 1 := by omega
    rw [this]
    simp only [descendingFindSome]
    rw [show (L + d) + 1 = L + (d + 1) from by omega, hhigh (d + 1) (by omega) (by omega)]
    cases hg : g' (d + 1) with
    | some u => rfl
    | none => exact ih fun j h1 h2 => hhigh j h1 (by omega)

theorem flm_none_of_lcp_zero {T : Type} (c : Node T) (x : List Char)
    (hlcp : longestCommonPrefix c.key x = 0) : findLongestMatchRec c x = none := by
  cases c with
  | mk ck cv ccs =>
    simp only [Node.key] at hlcp
    simp only [findLongestMatchRec]
    rw [if_pos hlcp]

theorem flmChildren_none_of_head_notin {T : Type} (cs : Children T) (x : List Char)
    (h : x.head? ∉ cs.keyHeads) : findLongestMatchChildren cs x = none := by
  cases cs with
  | nil => rfl
  | cons c rest =>
    simp only [Children.keyHeads, List.mem_cons] at h
    push_neg at h
    simp only [findLongestMatchChildren]
    rw [flm_none_of_lcp_zero c x (lcp_zero_of_head_ne _ _ (fun hc => h.1 hc.symm))]
    exact flmChildren_none_of_head_notin rest x h.2

theorem getKeyChildren_none_of_head_notin {T : Type} (cs : Children T) (p : List Char)
    (h : p.head? ∉ cs.keyHeads) (hinv : childrenInv cs = true) :
    getKeyChildren cs p = none := by
  by_contra hc
  exact h (getKeyChildren_head_mem cs p hc hinv)

mutual

theorem flmRec_leaf {T : Type} (n : Node T) (k : List Char) (m : Node T)
    (h : findLongestMatchRec n k = some m) : m.val.isSome = true := by
  cases n with
  | mk nk nv cs =>
    simp only [findLongestMatchRec] at h
    split at h
    · simp at h
    · split at h
      · simp at h
      · rcases hg : findLongestMatchChildren cs (k.drop (longestCommonPrefix nk k))
            with _ | f
        · rw [hg] at h
          simp only at h
          split at h
          · rename_i hleaf
            rw [← Option.some.inj h]
            simpa [Node.val, Node.isLeaf] using hleaf
          · simp at h
        · rw [hg] at h
          simp only at h
          rw [← Option.some.inj h]
          exact flmChildren_leaf cs _ f hg

theorem flmChildren_leaf {T : Type} (cs : Children T) (k : List Char) (m : Node T)
    (h : findLongestMatchChildren cs k = some m) : m.val.isSome = true := by
  cases cs with
  | nil => simp [findLongestMatchChildren] at h
  | cons c rest =>
    simp only [findLongestMatchChildren] at h
    rcases hg : findLongestMatchRec c k with _ | f
    · rw [hg] at h
      exact flmChildren_leaf rest k m h
    · rw [hg] at h
      rw [← Option.some.inj h]
      exact flmRec_leaf c k f hg

end

theorem flmChildren_nil_key {T : Type} (cs : Children T) :
    findLongestMatchChildren cs [] = none := by
  cases cs with
  | nil => rfl
  | cons c rest =>
    simp only [findLongestMatchChildren]
    rw [flm_none_of_lcp_zero c [] (lcp_nil_right c.key)]
    exact flmChildren_nil_key rest

mutual

theorem flmRec_descending {T : Type} (n : Node T) (k : List Char)
    (hinv : nodeInv n = true) :
    (findLongestMatchRec n k).bind Node.val
      = descendingFindSome (fun i => getKeyNode n (k.take i)) k.length := by
  cases n with
  | mk nk nv cs =>
    rw [nodeInv_mk_iff] at hinv
    by_cases hpre : nk.isPrefixOf k = true
    · have hL : longestCommonPrefix nk k = nk.length := lcp_of_isPre nk k hpre
      have hL1 : 1 ≤ nk.length := by
        rcases hnk : nk with _ | ⟨a, as⟩
        · exact absurd hnk hinv.1
        · simp
      have hpre' := hpre
      rw [List.isPrefixOf_iff_prefix] at hpre'
      have hLk : nk.length ≤ k.length := hpre'.length_le
      have hnktake : k.take nk.length = nk := (List.prefix_iff_eq_take.mp hpre').symm
      have hcode : findLongestMatchRec (.mk nk nv cs) k
          = match findLongestMatchChildren cs (k.drop nk.length) with
            | some found => some found
            | none =>
              if (Node.mk nk nv cs).isLeaf = true then some (.mk nk nv cs) else none := by
        simp only [findLongestMatchRec]
        rw [if_neg (by rw [hL]; omega), if_neg (by rw [hL]; simp), hL]
      have hchild := flmChildren_descending cs (k.drop nk.length) hinv.2.2 hinv.2.1
      have hdecomp := descFS_decomp (fun i => getKeyNode (.mk nk nv cs) (k.take i))
        (fun j => getKeyChildren cs ((k.drop nk.length).take j))
        nk.length (k.length - nk.length) nv hL1
        (fun j hj => by
          simp only [getKeyNode]
          rw [if_neg (by
              intro hc
              have := congrArg List.length hc
              rw [List.length_take] at this
              omega),
            if_neg (by
              rw [List.isPrefixOf_iff_prefix]
              intro hc
              have := hc.length_le
              rw [List.length_take] at this
              omega)])
        (by
          simp only [getKeyNode]
          rw [hnktake, if_pos rfl])
        (fun j h1 h2 => by
          have harg : (k.take (nk.length + j)).drop nk.length
              = (k.drop nk.length).take j := by
            rw [List.drop_take]
            congr 1
            omega
          simp only [getKeyNode]
          rw [if_neg (by
              intro hc
              have := congrArg List.length hc
              rw [List.length_take] at this
              omega),
            if_pos (by
              rw [List.isPrefixOf_iff_prefix, List.take_add, hnktake]
              exact List.prefix_append _ _),
            harg])
      rw [hcode]
      have hksplit : k.length = nk.length + (k.length - nk.length) := by omega
      rw [show (fun i => getKeyNode (Node.mk nk nv cs) (k.take i)) =
        (fun i => getKeyNode (Node.mk nk nv cs) (k.take i)) from rfl] at hdecomp
      rw [hksplit, hdecomp]
      have hlen : (k.drop nk.length).length = k.length - nk.length := by
        rw [List.length_drop]
      rw [hlen] at hchild
      rcases hx : findLongestMatchChildren cs (k.drop nk.length) with _ | f
      · rw [hx] at hchild
        simp only [Option.none_bind] at hchild
        rw [← hchild]
        simp only [Node.isLeaf, Node.val]
        cases nv with
        | none => simp
        | some w => simp [Node.val]
      · rw [hx] at hchild
        simp only [Option.some_bind] at hchild
        rw [← hchild]
        simp only [Option.some_bind]
        have := flmChildren_leaf cs (k.drop nk.length) f hx
        rcases hfv : f.val with _ | w
        · rw [hfv] at this; simp at this
        · simp
    · have hlcp : longestCommonPrefix nk k ≠ nk.length := fun hc =>
        hpre (isPre_of_lcp nk k hc)
      have hcode : findLongestMatchRec (.mk nk nv cs) k = none := by
        simp only [findLongestMatchRec]
        by_cases h0 : longestCommonPrefix nk k = 0
        · rw [if_pos h0]
        · rw [if_neg h0, if_pos hlcp]
      rw [hcode]
      simp only [Option.none_bind]
      symm
      apply descFS_none
      intro j h1 h2
      simp only [getKeyNode]
      rw [if_neg (by
          intro hc
          apply hpre
          rw [List.isPrefixOf_iff_prefix, ← hc]
          exact List.take_prefix j k),
        if_neg (by
          rw [List.isPrefixOf_iff_prefix]
          intro hc
          apply hpre
          rw [List.isPrefixOf_iff_prefix]
          exact hc.trans (List.take_prefix j k))]

theorem flmChildren_descending {T : Type} (cs : Children T) (k : List Char)
    (hinv : childrenInv cs = true) (hnodup : cs.keyHeads.Nodup) :
    (findLongestMatchChildren cs k).bind Node.val
      = descendingFindSome (fun j => getKeyChildren cs (k.take j)) k.length := by
  cases cs with
  | nil =>
    simp only [findLongestMatchChildren, Option.none_bind]
    symm
    apply descFS_none
    intro j _ _
    rfl
  | cons c rest =>
    rw [childrenInv_cons_iff] at hinv
    simp only [Children.keyHeads, List.nodup_cons] at hnodup
    by_cases hk : k = []
    · subst hk
      simp only [List.length_nil, descendingFindSome]
      rw [flmChildren_nil_key]
      rfl
    · by_cases hh : c.key.head? = k.head?
      · have hnotin : k.head? ∉ rest.keyHeads := by rw [← hh]; exact hnodup.1
        have hrest : findLongestMatchChildren rest k = none :=
          flmChildren_none_of_head_notin rest k hnotin
        have hlhs : (findLongestMatchChildren (.cons c rest) k).bind Node.val
            = (findLongestMatchRec c k).bind Node.val := by
          simp only [findLongestMatchChildren]
          rcases hf : findLongestMatchRec c k with _ | f
          · rw [hrest]
          · rfl
        rw [hlhs, flmRec_descending c k hinv.1]
        apply descFS_congr
        intro j h1 h2
        have hjh : (k.take j).head? = k.head? := head_take_pos k j (by omega)
        have hrestg : getKeyChildren rest (k.take j) = none := by
          apply getKeyChildren_none_of_head_notin rest _ _ hinv.2
          rw [hjh, ← hh]
          exact hnodup.1
        simp only [getKeyChildren]
        rcases hg : getKeyNode c (k.take j) with _ | w
        · rw [hrestg]
        · rfl
      · have hck : c.key ≠ [] := by
          cases c with
          | mk ck cv ccs =>
            rw [nodeInv_mk_iff] at hinv
            exact hinv.1.1
        have hflmc : findLongestMatchRec c k = none :=
          flm_none_of_lcp_zero c k (lcp_zero_of_head_ne _ _ hh)
        have hlhs : (findLongestMatchChildren (.cons c rest) k).bind Node.val
            = (findLongestMatchChildren rest k).bind Node.val := by
          simp only [findLongestMatchChildren]
          rw [hflmc]
        rw [hlhs, flmChildren_descending rest k hinv.2 hnodup.2]
        apply descFS_congr
        intro j h1 h2
        have hjh : (k.take j).head? = k.head? := head_take_pos k j (by omega)
        have hcg : getKeyNode c (k.take j) = none := by
          apply getKeyNode_none_of_lcp_zero c _ hck
          apply lcp_zero_of_head_ne
          rw [hjh]
          exact hh
        simp only [getKeyChildren]
        rw [hcg]

end

theorem loop_eq_spec (l : List Char) (b : Bool) :
    checkPathParamsLoop l b =
      (if specScanBad l b then some .badPathParamSyntax else none) := by
  induction l generalizing b with
  | nil => cases b <;> rfl
  | cons c rest ih =>
    by_cases h1 : c = '{'
    · subst h1
      cases b <;> simp [checkPathParamsLoop, specScanBad, ih]
    · by_cases h2 : c = '}'
      · subst h2
        cases b <;> simp [checkPathParamsLoop, specScanBad, ih]
      · by_cases h3 : c = '/'
        · subst h3
          cases b <;> simp [checkPathParamsLoop, specScanBad, ih]
        · cases b <;> simp [checkPathParamsLoop, specScanBad, ih, h1, h2, h3]

theorem specScanBad_no_braces (l : List Char) (h1 : l.contains '{' = false)
    (h2 : l.contains '}' = false) : specScanBad l false = false := by
  induction l with
  | nil => rfl
  | cons c rest ih =>
    simp only [List.contains_cons, Bool.or_eq_false_iff, beq_eq_false_iff_ne] at h1 h2
    simp only [specScanBad]
    rw [if_neg (fun hc => h1.1 hc.symm), if_neg (fun hc => h2.1 hc.symm)]
    split <;> simpa using ih h1.2 h2.2

theorem checkPathParams_eq_spec (l : List Char) :
    checkPathParams l =
      (if specScanBad l false then some .badPathParamSyntax else none) := by
  simp only [checkPathParams]
  split
  · rename_i hc
    simp only [Bool.not_eq_true] at hc
    rw [specScanBad_no_braces l hc.1 hc.2]
    simp
  · exact loop_eq_spec l false

theorem checkUrl_eq_spec (url : List Char) (hne : url ≠ []) :
    checkUrl url =
      (if url.head? ≠ some '/' then some .missingSlashPrefix
       else if url.getLast? = some '/' ∧ url ≠ ['/'] then some .presentSlashSuffix
       else if specScanBad url false then some .badPathParamSyntax
       else none) := by
  cases url with
  | nil => exact absurd rfl hne
  | cons c rest =>
    by_cases h1 : c = '/'
    · subst h1
      have hrhs :
          (if ('/' :: rest).head? ≠ some '/' then some RErr.missingSlashPrefix
           else if ('/' :: rest).getLast? = some '/' ∧ ('/' :: rest) ≠ ['/'] then
             some RErr.presentSlashSuffix
           else if specScanBad ('/' :: rest) false then some RErr.badPathParamSyntax
           else none)
          = (if ('/' :: rest).getLast? = some '/' ∧ ('/' :: rest) ≠ ['/'] then
              some RErr.presentSlashSuffix
             else if specScanBad ('/' :: rest) false then some RErr.badPathParamSyntax
             else none) := by
        rw [if_neg (by simp)]
      rw [hrhs]
      simp only [checkUrl]
      rw [if_neg (by simp)]
      split
      · rfl
      · exact checkPathParams_eq_spec _
    · simp only [checkUrl, List.head?]
      rw [if_pos (by simpa using h1), if_pos (by simpa using h1)]

theorem splitOnSlash_ne_nil (v : List Char) : splitOnSlash v ≠ [] := by
  cases v with
  | nil => simp [splitOnSlash]
  | cons c rest =>
    simp only [splitOnSlash]
    split
    · simp
    · split
      · simp
      · simp

theorem splitOnSlash_no_brace (v : List Char) (ch : Char)
    (hv : v.contains ch = false) :
    ∀ t ∈ splitOnSlash v, t.contains ch = false := by
  induction v with
  | nil =>
    intro t ht
    simp only [splitOnSlash, List.mem_singleton] at ht
    subst ht
    rfl
  | cons c rest ih =>
    simp only [List.contains_cons, Bool.or_eq_false_iff, beq_eq_false_iff_ne] at hv
    intro t ht
    simp only [splitOnSlash] at ht
    split at ht
    · rcases List.mem_cons.mp ht with h | h
      · subst h; rfl
      · exact ih hv.2 t h
    · rcases hs : splitOnSlash rest with _ | ⟨t0, ts⟩
      · exact absurd hs (splitOnSlash_ne_nil rest)
      · rw [hs] at ht
        rcases List.mem_cons.mp ht with h | h
        · subst h
          simp only [List.contains_cons, Bool.or_eq_false_iff, beq_eq_false_iff_ne]
          refine ⟨fun hc => hv.1 hc, ?_⟩
          exact ih hv.2 t0 (by rw [hs]; exact List.mem_cons_self t0 ts)
        · exact ih hv.2 t (by rw [hs]; exact List.mem_cons_of_mem t0 h)

theorem collect_eq_enumFrom (l : List (List Char)) (i : Nat) :
    collectPathParams l i = (l.enumFrom i).filterMap fun p =>
      if p.2.contains '{' ∧ 2 ≤ p.2.length then
        some ⟨p.2.drop 1 |>.take (p.2.length - 2), p.1 % 256⟩
      else none := by
  induction l generalizing i with
  | nil => rfl
  | cons el rest ih =>
    simp only [collectPathParams, List.enumFrom, List.filterMap_cons]
    split
    · rw [ih (i + 1)]
    · exact ih (i + 1)

theorem getPathParams_eq_spec (v : List Char) : getPathParams v = specPathParams v := by
  simp only [getPathParams, specPathParams, List.enum]
  rw [collect_eq_enumFrom]

theorem collect_nil_of_no_brace (l : List (List Char)) (i : Nat)
    (h : ∀ t ∈ l, t.contains '{' = false) : collectPathParams l i = [] := by
  induction l generalizing i with
  | nil => rfl
  | cons el rest ih =>
    simp only [collectPathParams]
    rw [if_neg (by
      intro hc
      rw [h el (List.mem_cons_self el rest)] at hc
      exact absurd hc.1 (by simp))]
    exact ih (i + 1) fun t ht => h t (List.mem_cons_of_mem el ht)

theorem getPathParams_no_brace (v : List Char) (hv : v.contains '{' = false) :
    getPathParams v = [] := by
  simp only [getPathParams]
  rw [collect_nil_of_no_brace _ 0 (splitOnSlash_no_brace v '{' hv)]
  have : v.count '{' = 0 := by
    rw [List.count_eq_zero]
    intro hc
    rw [Bool.eq_false_iff] at hv
    exact hv (List.elem_iff.mpr hc)
  rw [this]
  rfl

theorem collect_mem_pos (l : List (List Char)) (i0 j : Nat) (hj : j < l.length)
    (hb : (l.getD j []).contains '{' = true) (h2 : 2 ≤ (l.getD j []).length) :
    (⟨(l.getD j []).drop 1 |>.take ((l.getD j []).length - 2), (i0 + j) % 256⟩ : ParamInfo)
      ∈ collectPathParams l i0 := by
  induction l generalizing i0 j with
  | nil => simp at hj
  | cons el rest ih =>
    cases j with
    | zero =>
      simp only [List.getD_cons_zero] at hb h2 ⊢
      simp only [collectPathParams]
      rw [if_pos ⟨hb, h2⟩, Nat.add_zero]
      exact List.mem_cons_self _ _
    | succ j' =>
      simp only [List.getD_cons_succ] at hb h2 ⊢
      simp only [List.length_cons] at hj
      have hmem := ih (i0 + 1) j' (by omega) hb h2
      have harith : (i0 + 1) + j' = i0 + (j' + 1) := by omega
      rw [harith] at hmem
      simp only [collectPathParams]
      split
      · exact List.mem_cons_of_mem _ hmem
      · exact hmem

theorem insertT_err_unchanged {T : Type} (t : RTree T) (k : List Char) (v : T)
    (e : RErr) (h : (insertT t k v).2 = some e) : (insertT t k v).1 = t := by
  simp only [insertT] at h ⊢
  by_cases hk : k = []
  · rw [if_pos hk]
  · rw [if_neg hk] at h ⊢
    rcases hc : checkUrl k with _ | e'
    · rw [hc] at h
      cases t with
      | none => simp at h
      | some root =>
        dsimp only at h ⊢
        rcases hr : insertRecM root k ⟨v, getPathParams k⟩ with ⟨root', e''⟩
        rw [hr] at h
        dsimp only at h ⊢
        rw [insertRecM_err_unchanged root root' k _ e (by rw [hr, h])]
    · rfl

theorem insertT_inv {T : Type} (t : RTree T) (k : List Char) (v : T)
    (ht : treeInv t = true) : treeInv (insertT t k v).1 = true := by
  rcases he : (insertT t k v).2 with _ | e
  · simp only [insertT] at he ⊢
    by_cases hk : k = []
    · rw [if_pos hk] at he
      simp at he
    · rw [if_neg hk] at he ⊢
      rcases hc : checkUrl k with _ | e'
      · rw [hc] at he
        cases t with
        | none =>
          simp only [treeInv]
          rw [nodeInv_mk_iff]
          exact ⟨hk, by simp [Children.keyHeads], rfl⟩
        | some root =>
          dsimp only at he ⊢
          rcases hr : insertRecM root k ⟨v, getPathParams k⟩ with ⟨root', e''⟩
          rw [hr] at he
          dsimp only at he ⊢
          simp only [treeInv] at ht ⊢
          exact (insertRecM_ok_props root root' k _ (by rw [hr, he])).2.1 ht
      · rw [hc] at he
        simp at he
  · rw [insertT_err_unchanged t k v e he]
    exact ht

theorem insertT_noWild {T : Type} (t : RTree T) (k : List Char) (v : T)
    (ht : treeNoWild t = true) (hk : k.contains '{' = false) :
    treeNoWild (insertT t k v).1 = true := by
  rcases he : (insertT t k v).2 with _ | e
  · simp only [insertT] at he ⊢
    by_cases hk0 : k = []
    · rw [if_pos hk0] at he
      simp at he
    · rw [if_neg hk0] at he ⊢
      rcases hc : checkUrl k with _ | e'
      · rw [hc] at he
        cases t with
        | none =>
          simp only [treeNoWild]
          rw [nodeNoWild_mk_iff]
          exact ⟨hk, rfl⟩
        | some root =>
          dsimp only at he ⊢
          rcases hr : insertRecM root k ⟨v, getPathParams k⟩ with ⟨root', e''⟩
          rw [hr] at he
          dsimp only at he ⊢
          simp only [treeNoWild] at ht ⊢
          exact (insertRecM_ok_props root root' k _ (by rw [hr, he])).2.2 ht hk
      · rw [hc] at he
        simp at he
  · rw [insertT_err_unchanged t k v e he]
    exact ht

theorem insertT_ok_facts {T : Type} (t : RTree T) (k : List Char) (v : T)
    (h : (insertT t k v).2 = none) : k ≠ [] ∧ checkUrl k = none := by
  simp only [insertT] at h
  by_cases hk : k = []
  · rw [if_pos hk] at h
    simp at h
  · rw [if_neg hk] at h
    rcases hc : checkUrl k with _ | e'
    · exact ⟨hk, rfl⟩
    · rw [hc] at h
      simp at h

theorem insertT_ok_getKey_T {T : Type} (t : RTree T) (k : List Char) (v : T)
    (ht : treeInv t = true) (h : (insertT t k v).2 = none) :
    getKeyT (insertT t k v).1 k = some ⟨v, getPathParams k⟩ := by
  simp only [insertT] at h ⊢
  by_cases hk : k = []
  · rw [if_pos hk] at h
    simp at h
  · rw [if_neg hk] at h ⊢
    rcases hc : checkUrl k with _ | e'
    · rw [hc] at h
      cases t with
      | none =>
        simp only [getKeyT]
        rw [getKeyNode_leaf, if_pos rfl]
      | some root =>
        dsimp only at h ⊢
        rcases hr : insertRecM root k ⟨v, getPathParams k⟩ with ⟨root', e''⟩
        rw [hr] at h
        dsimp only at h ⊢
        simp only [getKeyT]
        simp only [treeInv] at ht
        exact insertRecM_ok_getKey root root' k _ ht (by rw [hr, h])
    · rw [hc] at h
      simp at h

theorem insertT_getKey_other {T : Type} (t : RTree T) (k x : List Char) (v : T)
    (hx : x ≠ k) : getKeyT (insertT t k v).1 x = getKeyT t x := by
  rcases he : (insertT t k v).2 with _ | e
  · simp only [insertT] at he ⊢
    by_cases hk : k = []
    · rw [if_pos hk] at he
      simp at he
    · rw [if_neg hk] at he ⊢
      rcases hc : checkUrl k with _ | e'
      · rw [hc] at he
        cases t with
        | none =>
          simp only [getKeyT]
          rw [getKeyNode_leaf, if_neg hx]
        | some root =>
          dsimp only at he ⊢
          rcases hr : insertRecM root k ⟨v, getPathParams k⟩ with ⟨root', e''⟩
          rw [hr] at he
          dsimp only at he ⊢
          simp only [getKeyT]
          exact insertRecM_ok_getKey_other root root' k x _ (by rw [hr, he]) hx
      · simp [hc] at he
  · rw [insertT_err_unchanged t k v e he]

theorem stored_insertT_kAS {T : Type} (t : RTree T) (k : List Char) (v : T)
    (ht : treeInv t = true) (hs : getKeyT t k ≠ none) (hk : k ≠ [])
    (hc : checkUrl k = none) : insertT t k v = (t, some .keyIsAlreadyStored) := by
  simp only [insertT]
  rw [if_neg hk, hc]
  cases t with
  | none => simp [getKeyT] at hs
  | some root =>
    dsimp only
    simp only [getKeyT] at hs
    simp only [treeInv] at ht
    rw [getKey_insertRecM_kAS root k ⟨v, getPathParams k⟩ ht hs]

theorem stored_step {T : Type} (t : RTree T) (k k' : List Char) (v' : T)
    (nv : NodeValue T) (ht : treeInv t = true) (hs : getKeyT t k = some nv)
    (hk : k ≠ []) (hc : checkUrl k = none) :
    treeInv (insertT t k' v').1 = true ∧ getKeyT (insertT t k' v').1 k = some nv := by
  refine ⟨insertT_inv t k' v' ht, ?_⟩
  by_cases hkk : k' = k
  · subst hkk
    rw [stored_insertT_kAS t k' v' ht (by rw [hs]; simp) hk hc]
    exact hs
  · rw [insertT_getKey_other t k' k v' (fun hc2 => hkk hc2.symm)]
    exact hs

theorem insertAll_stored {T : Type} (ops : List (List Char × T)) (t : RTree T)
    (k : List Char) (nv : NodeValue T) (ht : treeInv t = true)
    (hs : getKeyT t k = some nv) (hk : k ≠ []) (hc : checkUrl k = none) :
    treeInv (insertAll t ops) = true ∧ getKeyT (insertAll t ops) k = some nv := by
  induction ops generalizing t with
  | nil => exact ⟨ht, hs⟩
  | cons p rest ih =>
    simp only [insertAll]
    obtain ⟨h1, h2⟩ := stored_step t k p.1 p.2 nv ht hs hk hc
    exact ih (insertT t p.1 p.2).1 h1 h2

theorem insertAll_inv {T : Type} (ops : List (List Char × T)) (t : RTree T)
    (ht : treeInv t = true) : treeInv (insertAll t ops) = true := by
  induction ops generalizing t with
  | nil => exact ht
  | cons p rest ih =>
    simp only [insertAll]
    exact ih (insertT t p.1 p.2).1 (insertT_inv t p.1 p.2 ht)

theorem insertAll_noWild {T : Type} (ops : List (List Char × T)) (t : RTree T)
    (ht : treeNoWild t = true) (hops : ∀ p ∈ ops, p.1.contains '{' = false) :
    treeNoWild (insertAll t ops) = true := by
  induction ops generalizing t with
  | nil => exact ht
  | cons p rest ih =>
    simp only [insertAll]
    exact ih (insertT t p.1 p.2).1
      (insertT_noWild t p.1 p.2 ht (hops p (List.mem_cons_self p rest)))
      fun q hq => hops q (List.mem_cons_of_mem p hq)

theorem getKeyT_nil_none {T : Type} (t : RTree T) (ht : treeInv t = true) :
    getKeyT t [] = none := by
  cases t with
  | none => rfl
  | some root =>
    simp only [treeInv] at ht
    simp only [getKeyT]
    cases root with
    | mk nk nv cs =>
      rw [nodeInv_mk_iff] at ht
      exact getKeyNode_none_of_lcp_zero _ _ (by simpa [Node.key] using ht.1)
        (by simp [Node.key, lcp_nil_right])

theorem findT_correct {T : Type} (t : RTree T) (k : List Char) (nv : NodeValue T)
    (ht : treeInv t = true) (hw : treeNoWild t = true) (hs : getKeyT t k = some nv) :
    findT t k = some (nv.value, matchParams nv.params k) := by
  cases t with
  | none => simp [getKeyT] at hs
  | some root =>
    have hk : k ≠ [] := by
      intro hc
      subst hc
      rw [getKeyT_nil_none _ ht] at hs
      simp at hs
    simp only [getKeyT] at hs
    simp only [treeInv] at ht
    simp only [treeNoWild] at hw
    obtain ⟨m, hm, hmv⟩ := findRec_getKey root k nv ht hw hs
    simp only [findT]
    rw [if_neg hk, hm]
    dsimp only
    rw [hmv]

theorem flmT_longest {T : Type} (t : RTree T) (k : List Char)
    (ht : treeInv t = true) :
    (findLongestMatchT t k).map Prod.fst = longestStoredValue t k := by
  cases t with
  | none =>
    simp only [findLongestMatchT, Option.map_none, longestStoredValue]
    rw [descFS_none (fun i => getKeyT (none : RTree T) (k.take i)) k.length
      (fun j _ _ => rfl)]
    rfl
  | some root =>
    by_cases hk : k = []
    · subst hk
      simp only [findLongestMatchT, if_pos rfl, Option.map_none, longestStoredValue,
        List.length_nil, descendingFindSome]
      rfl
    · simp only [treeInv] at ht
      have hdesc := flmRec_descending root k ht
      simp only [findLongestMatchT, longestStoredValue]
      rw [if_neg hk]
      have hgk : (fun i => getKeyT (some root) (k.take i))
          = (fun i => getKeyNode root (k.take i)) := rfl
      rw [hgk, ← hdesc]
      rcases hf : findLongestMatchRec root k with _ | m
      · rfl
      · rcases hmv : m.val with _ | nv
        · simp [hmv]
        · simp [hmv]

/-- C7: the offset scanner returns `(3, 0, true)` on `("foo", "bar")` in
wildcard mode, and `(9, 6, false)` on `("/foo/{id}", "/foo/5/6")` outside
wildcard mode. -/
theorem c7_scanOffsets_examples :
    getOffsets "foo".toList "bar".toList true = (3, 0, true)
    ∧ getOffsets "/foo/{id}".toList "/foo/5/6".toList false = (9, 6, false) :=
  ⟨rfl, rfl⟩

/-- C3: inserting the single key `/foo/{id}/baz` with value `v` into an
empty tree and then looking up `/foo/5/baz` returns `v` with the
parameter map binding `id` to `5`. -/
theorem c3_wildcard_roundtrip {T : Type} (v : T) :
    findT (insertT (none : RTree T) "/foo/{id}/baz".toList v).1 "/foo/5/baz".toList
      = some (v, [("id".toList, "5".toList)]) := rfl

/-- C2: after inserting the three wildcard routes in order,
`Find "/api/products/delete/1"` returns the delete route's value with
parameters `resource ↦ products`, `id ↦ 1`, and
`Find "/api/products/insert/1"` returns absence. -/
theorem c2_multi_param {T : Type} (v1 v2 v3 : T) :
    findT (insertAll (none : RTree T)
        [("/api/{resource}/get/{id}".toList, v1),
         ("/api/{resource}/delete/{id}".toList, v2),
         ("/api/{resource}/update/{id}".toList, v3)])
      "/api/products/delete/1".toList
      = some (v2, [("resource".toList, "products".toList), ("id".toList, "1".toList)])
    ∧ findT (insertAll (none : RTree T)
        [("/api/{resource}/get/{id}".toList, v1),
         ("/api/{resource}/delete/{id}".toList, v2),
         ("/api/{resource}/update/{id}".toList, v3)])
      "/api/products/insert/1".toList = none :=
  ⟨rfl, rfl⟩

/-- C10: wildcard positions are stored as 8-bit values.  For every key
`v` whose `/`-split holds at index `i ≥ 256` a token `el` the extractor
recognizes (it contains `'{'` and has length at least two), the stored
descriptor carries position `i % 256` — an index strictly below 256 and
different from `i` — and at match time a descriptor `⟨name, pos⟩` binds
`name` to the search key's segment at index `pos` when the split is long
enough, and is silently skipped otherwise: the parameter is resolved at
the wrapped index, never at the index the wildcard occupied. -/
theorem c10_uint8_position_wrap (v : List Char) (i : Nat) (el : List Char)
    (hi : 256 ≤ i) (hlen : i < (splitOnSlash v).length)
    (htok : (splitOnSlash v).getD i [] = el)
    (hb : el.contains '{' = true) (h2 : 2 ≤ el.length) :
    (⟨el.drop 1 |>.take (el.length - 2), i % 256⟩ : ParamInfo) ∈ getPathParams v
    ∧ i % 256 < 256
    ∧ i % 256 ≠ i
    ∧ ∀ (name : List Char) (pos : Nat) (w : List Char),
        matchParams [⟨name, pos⟩] w =
          (if (splitOnSlash w).length ≤ pos then []
           else [(name, (splitOnSlash w).getD pos [])]) := by
  have hmod : i % 256 < 256 := Nat.mod_lt i (by norm_num)
  refine ⟨?_, hmod, by omega, ?_⟩
  · have hmem := collect_mem_pos (splitOnSlash v) 0 i hlen
      (by rw [htok]; exact hb) (by rw [htok]; exact h2)
    rw [Nat.zero_add, htok] at hmem
    simp only [getPathParams]
    exact List.mem_append_left _ hmem
  · intro name pos w
    simp only [matchParams, List.foldl_cons, List.foldl_nil, ge_iff_le]
    by_cases h : (splitOnSlash w).length ≤ pos
    · rw [if_pos h, if_pos h]
    · rw [if_neg h, if_neg h]
      rfl

set_option maxRecDepth 10000 in
/-- C10 witness: the theorem at the concrete key `longKeyC10`, whose
wildcard token `{p}` sits at split index 257 and is stored with position
`257 % 256 = 1`; end to end, `Find` on `longSearchC10` binds `p` to the
segment at index 1 (`a`) instead of the segment the wildcard occupied
(index 257, `zzz`), and a descriptor whose position exceeds the split
length is silently skipped. -/
theorem c10_witness :
    ((⟨"p".toList, 257 % 256⟩ : ParamInfo) ∈ getPathParams longKeyC10
      ∧ 257 % 256 < 256
      ∧ 257 % 256 ≠ 257
      ∧ ∀ (name : List Char) (pos : Nat) (w : List Char),
          matchParams [⟨name, pos⟩] w =
            (if (splitOnSlash w).length ≤ pos then []
             else [(name, (splitOnSlash w).getD pos [])]))
    ∧ (splitOnSlash longKeyC10).getD 257 [] = "{p}".toList
    ∧ (splitOnSlash longSearchC10).getD 257 [] = "zzz".toList
    ∧ findT longTreeC10 longSearchC10 = some (5, [("p".toList, "a".toList)])
    ∧ matchParams [⟨"p".toList, 300⟩] longSearchC10 = [] :=
  ⟨c10_uint8_position_wrap longKeyC10 257 "{p}".toList (by norm_num)
      (by decide) rfl rfl (by norm_num),
    rfl, rfl, rfl, rfl⟩

/-- C5: `Insert` validation follows the spec cascade exactly — empty key,
then missing leading slash, then trailing slash (a key ending in `/` that
is not exactly `/`), then the left-to-right malformed-wildcard scan — and
a key passing all these checks can only fail for non-validation reasons
(`keyIsAlreadyStored`, or the internal `noCommonPrefix` signal). -/
theorem c5_validation_cascade {T : Type} (t : RTree T) (k : List Char) (v : T) :
    (∀ e, specValidate k = some e → insertT t k v = (t, some e))
    ∧ (specValidate k = none →
        ∀ e, (insertT t k v).2 = some e →
          e = RErr.keyIsAlreadyStored ∨ e = RErr.noCommonPrefix) := by
  constructor
  · intro e he
    simp only [specValidate] at he
    by_cases hk : k = []
    · rw [if_pos hk] at he
      simp only [insertT]
      rw [if_pos hk, ← Option.some.inj he]
    · rw [if_neg hk] at he
      have hcu : checkUrl k = some e := by
        rw [checkUrl_eq_spec k hk]
        exact he
      simp only [insertT]
      rw [if_neg hk, hcu]
  · intro h0 e he
    simp only [specValidate] at h0
    by_cases hk : k = []
    · rw [if_pos hk] at h0
      simp at h0
    · rw [if_neg hk] at h0
      have hcu : checkUrl k = none := by
        rw [checkUrl_eq_spec k hk]
        exact h0
      simp only [insertT] at he
      rw [if_neg hk, hcu] at he
      cases t with
      | none => simp at he
      | some root =>
        dsimp only at he
        rcases hr : insertRecM root k ⟨v, getPathParams k⟩ with ⟨root', e''⟩
        rw [hr] at he
        dsimp only at he
        exact (insertRecM_err_cases root root' k _ e (by rw [hr, he])).symm

/-- C8 counterexample: the key `/{}` passes validation, yet the extractor
yields a descriptor for the bare `{}` token — a parameter with the empty
name at position 1 — rather than yielding no parameter. -/
theorem c8_counterexample :
    checkUrl "/{}".toList = none
    ∧ getPathParams "/{}".toList = [⟨[], 1⟩] :=
  ⟨rfl, rfl⟩

/-- C8 (amended): for every key, the extractor returns one descriptor per
`/`-token that contains `'{'` and has length at least two, named by the
token minus its first and last characters and positioned at the token
index mod 256, padded with zero-valued entries up to the count of `'{'`
characters (so a bare `{}` yields a descriptor with empty name); a key
with no wildcard segment yields the empty sequence. -/
theorem c8_amended_extractor (v : List Char) :
    getPathParams v = specPathParams v
    ∧ (v.contains '{' = false → getPathParams v = []) :=
  ⟨getPathParams_eq_spec v, getPathParams_no_brace v⟩

/-- C1 counterexample: the wildcard route `/{x}` is inserted before the
static key `/ab`; the insertion of `/ab` with value 2 succeeds, yet
`Find "/ab"` returns the wildcard route's value 1 with the non-empty
parameter map `x ↦ ab` — not value 2 with an empty map. -/
theorem c1_counterexample :
    (insertT (insertT (none : RTree Nat) "/{x}".toList 1).1 "/ab".toList 2).2 = none
    ∧ findT exTreeC1 "/ab".toList = some (1, [("x".toList, "ab".toList)]) :=
  ⟨rfl, rfl⟩

/-- C1 (amended): for every wildcard-free key `k` successfully inserted
with value `v`, when every other key inserted before or after is also
wildcard-free, `Find k` returns `v` with an empty parameter map. -/
theorem c1_amended_static_roundtrip {T : Type} (ops0 ops : List (List Char × T))
    (k : List Char) (v : T)
    (hk : k.contains '{' = false)
    (hops0 : ∀ p ∈ ops0, p.1.contains '{' = false)
    (hops : ∀ p ∈ ops, p.1.contains '{' = false)
    (hins : (insertT (insertAll none ops0) k v).2 = none) :
    findT (insertAll (insertT (insertAll none ops0) k v).1 ops) k = some (v, []) := by
  have ht0 : treeInv (insertAll (none : RTree T) ops0) = true :=
    insertAll_inv ops0 none rfl
  have hw0 : treeNoWild (insertAll (none : RTree T) ops0) = true :=
    insertAll_noWild ops0 none rfl hops0
  have ht1 := insertT_inv (insertAll none ops0) k v ht0
  have hw1 := insertT_noWild (insertAll none ops0) k v hw0 hk
  obtain ⟨hkne, hcu⟩ := insertT_ok_facts (insertAll none ops0) k v hins
  have hg1 := insertT_ok_getKey_T (insertAll none ops0) k v ht0 hins
  rw [getPathParams_no_brace k hk] at hg1
  obtain ⟨ht2, hg2⟩ := insertAll_stored ops (insertT (insertAll none ops0) k v).1
    k ⟨v, []⟩ ht1 hg1 hkne hcu
  have hw2 := insertAll_noWild ops (insertT (insertAll none ops0) k v).1 hw1 hops
  rw [findT_correct _ k ⟨v, []⟩ ht2 hw2 hg2]
  rfl

/-- C1 witness: inserting `/a` ↦ 1 into the empty tree and then `/ab` ↦ 2;
`Find "/a"` returns 1 with an empty parameter map. -/
theorem c1_witness :
    findT (insertAll (insertT (insertAll (none : RTree Nat) []) "/a".toList 1).1
      [("/ab".toList, 2)]) "/a".toList = some (1, []) :=
  c1_amended_static_roundtrip [] [("/ab".toList, 2)] "/a".toList 1 rfl
    (by intro p hp; simp at hp)
    (by intro p hp; rw [List.mem_singleton] at hp; subst hp; rfl)
    rfl

/-- C4: a key `k` successfully inserted at any point (and kept through any
further sequence of inserts) cannot be inserted again — the second
`Insert` of the same full key fails with `keyIsAlreadyStored` and returns
the tree unchanged; moreover every failing `Insert` whatsoever leaves the
tree unmodified, so every subsequent `Find`, `FindLongestMatch`,
`GetAllLeaf` and `GetByPredicate` result is the same as before the failed
attempt. -/
theorem c4_duplicate_insert {T : Type} (ops0 ops : List (List Char × T))
    (k : List Char) (v0 v : T)
    (hins : (insertT (insertAll none ops0) k v0).2 = none) :
    insertT (insertAll (insertT (insertAll none ops0) k v0).1 ops) k v
      = (insertAll (insertT (insertAll none ops0) k v0).1 ops,
          some RErr.keyIsAlreadyStored)
    ∧ ∀ (t : RTree T) (k' : List Char) (v' : T) (e : RErr),
        (insertT t k' v').2 = some e →
          (insertT t k' v').1 = t
          ∧ findT (insertT t k' v').1 = findT t
          ∧ findLongestMatchT (insertT t k' v').1 = findLongestMatchT t
          ∧ getAllLeafT (insertT t k' v').1 = getAllLeafT t
          ∧ ∀ fn, getByPredicateT (insertT t k' v').1 fn = getByPredicateT t fn := by
  constructor
  · have ht0 : treeInv (insertAll (none : RTree T) ops0) = true :=
      insertAll_inv ops0 none rfl
    have ht1 := insertT_inv (insertAll none ops0) k v0 ht0
    obtain ⟨hkne, hcu⟩ := insertT_ok_facts (insertAll none ops0) k v0 hins
    have hg1 := insertT_ok_getKey_T (insertAll none ops0) k v0 ht0 hins
    obtain ⟨ht2, hg2⟩ := insertAll_stored ops (insertT (insertAll none ops0) k v0).1
      k ⟨v0, getPathParams k⟩ ht1 hg1 hkne hcu
    exact stored_insertT_kAS _ k v ht2 (by rw [hg2]; simp) hkne hcu
  · intro t k' v' e he
    have hu := insertT_err_unchanged t k' v' e he
    exact ⟨hu, by rw [hu], by rw [hu], by rw [hu], fun fn => by rw [hu]⟩

/-- C4 witness: after inserting `/a` ↦ 1 into the empty tree, inserting
`/a` ↦ 2 fails with `keyIsAlreadyStored` and leaves the tree unchanged. -/
theorem c4_witness :
    insertT (insertT (none : RTree Nat) "/a".toList 1).1 "/a".toList 2
      = ((insertT (none : RTree Nat) "/a".toList 1).1,
          some RErr.keyIsAlreadyStored) :=
  (c4_duplicate_insert [] [] "/a".toList 1 2 rfl).1

/-- C9: every tree built by a sequence of `Insert` calls from the empty
tree satisfies the compression invariant — all fragments are non-empty
and no two sibling fragments share a first character — and one `Insert`
(successful or not, split case included) preserves the invariant on any
tree satisfying it. -/
theorem c9_compression_invariant {T : Type} (ops : List (List Char × T))
    (t : RTree T) (k : List Char) (v : T) (ht : treeInv t = true) :
    treeInv (insertAll (none : RTree T) ops) = true
    ∧ treeInv (insertT t k v).1 = true :=
  ⟨insertAll_inv ops none rfl, insertT_inv t k v ht⟩

/-- C9 witness: the invariant at two concrete instances — the tree built
from `/{x}` and `/ab` (a split case), and one insertion of `/ab` into a
single-node tree holding `/a`. -/
theorem c9_witness :
    treeInv (insertAll (none : RTree Nat) [("/{x}".toList, 1), ("/ab".toList, 2)]) = true
    ∧ treeInv (insertT (some (Node.mk "/a".toList
        (some ⟨1, []⟩) Children.nil) : RTree Nat) "/ab".toList 2).1 = true :=
  c9_compression_invariant [("/{x}".toList, 1), ("/ab".toList, 2)]
    (some (Node.mk "/a".toList (some ⟨1, []⟩) Children.nil)) "/ab".toList 2 rfl

/-- C6: on every tree satisfying the structural invariant,
`FindLongestMatch` returns exactly the value stored at the longest stored
key that is a prefix of the searched key (descending only where the
common prefix covers the whole fragment); in particular, after inserting
`/api/products` ↦ 10, `/api/products/outer` ↦ 11 and
`/api/products/inner` ↦ 12, `FindLongestMatch "/api/products/list-all"`
returns the value stored at `/api/products`. -/
theorem c6_longest_match {T : Type} (t : RTree T) (k : List Char)
    (ht : treeInv t = true) :
    (findLongestMatchT t k).map Prod.fst = longestStoredValue t k
    ∧ findLongestMatchT exTreeC6 "/api/products/list-all".toList = some (10, []) :=
  ⟨flmT_longest t k ht, rfl⟩

/-- C6 witness: the characterization and the concrete lookup on the
three-key example tree. -/
theorem c6_witness :
    (findLongestMatchT exTreeC6 "/api/products/list-all".toList).map Prod.fst
      = longestStoredValue exTreeC6 "/api/products/list-all".toList
    ∧ findLongestMatchT exTreeC6 "/api/products/list-all".toList = some (10, []) :=
  c6_longest_match exTreeC6 "/api/products/list-all".toList rfl
